import Mathlib

/-!
# ADC acquisition engine and PWM setup of the AVR32 platform layer

Shallow embedding of the ADC functions of `src/platform/avr32/platform.c`
(`platform_adc_stop`, `platform_adc_update_sequence`, `adc_int_handler`,
`platform_adc_start_sequence`) as state-passing functions over an explicit
state, and of `platform_pwm_setup` as a function of its arguments and of the
PWM clock, followed by the theorems about them.

The two C globals the ADC functions work on (the device state returned by
`adc_get_dev_state( 0 )` and the channel table behind `adc_get_ch_state`)
are fields of one record, together with the part of the converter the
functions read (end-of-conversion flags, data registers), the streaming
sink, and a trace of the calls the functions make to the hardware drivers
and to each other.

Pointers to channel records (`elua_adc_ch_state *`) are indices into the
channel table.  Unsigned machine integers are natural numbers; the places
where the width matters are the 32-bit mask of `INACTIVATE_CHANNEL`, the
16-bit cast of the sample value, and the `u32` product and subtraction of
`platform_pwm_setup`.
-/

namespace Avr32

/-- Number of ADC channels: `adc_pins` has eight entries
(`platform_conf.h`, which defines the constant, is not part of the sources). -/
def NUM_ADC : Nat := 8

/-- Return code of the platform functions (`platform.h`). -/
def PLATFORM_OK : Int := 1

/-- Calls that leave the modelled functions: hardware driver calls, register
accesses, sink pushes, and the calls of `platform_adc_stop` and
`adc_update_dev_sequence` made by `adc_int_handler` and
`platform_adc_start_sequence`. -/
inductive Event where
  | cr_swrst
  | ier_drdy
  | adc_configure
  | adc_enable (id : Nat)
  | gpio_enable_module (pin : Nat)
  | read_lcdr
  | adc_smooth_data (id : Nat)
  | buf_write (id : Nat) (value : Nat)
  | platform_adc_stop (id : Nat)
  | adc_update_dev_sequence
  | adc_start
  deriving DecidableEq, Repr

/-- Per-channel record `elua_adc_ch_state` (declared in `elua_adc.h`): the
fields the platform functions access and the smoothing history. -/
structure elua_adc_ch_state where
  op_pending : Nat
  freerunning : Nat
  smooth_ready : Nat
  value_fresh : Nat
  id : Nat
  logsmoothlen : Nat
  smoothidx : Nat
  smoothsum : Nat
  smoothbuf : List Nat
  reqsamples : Nat
  value_ptr : Nat
  deriving DecidableEq, Repr

/-- Content read through a channel pointer that is outside the table. -/
def ch_zero : elua_adc_ch_state :=
  { op_pending := 0, freerunning := 0, smooth_ready := 0, value_fresh := 0, id := 0,
    logsmoothlen := 0, smoothidx := 0, smoothsum := 0, smoothbuf := [],
    reqsamples := 0, value_ptr := 0 }

/-- Device record `elua_adc_dev_state` (declared in `elua_adc.h`).
`ch_state` holds pointers (table indices), `ch_active` is the 32-bit set of
active channels. -/
structure elua_adc_dev_state where
  ch_state : List Nat
  sample_buf : List Nat
  clocked : Nat
  running : Nat
  ch_active : Nat
  seq_ctr : Nat
  seq_len : Nat
  deriving DecidableEq, Repr

/-- Whole state the ADC functions work on. -/
structure ADC where
  d : elua_adc_dev_state
  adc_ch_state : List elua_adc_ch_state
  eoc : List Nat
  cdr : List Nat
  buf : List (Nat × Nat)
  trace : List Event
  deriving DecidableEq, Repr

/-- `adc_get_ch_state( id )`, read through the returned pointer. -/
def adc_get_ch_state (st : ADC) (id : Nat) : elua_adc_ch_state :=
  st.adc_ch_state.getD id ch_zero

/-- Write through a channel pointer into the channel table.  The state
holds the table only: a store through a pointer outside it (an id that is
not below the number of channels) lands in memory the state does not
represent and leaves no mark here, so nothing is stated about such a store. -/
def set_ch (p : Nat) (s : elua_adc_ch_state) (st : ADC) : ADC :=
  { st with adc_ch_state := st.adc_ch_state.set p s }

/-- Append one call to the trace. -/
def emit (e : Event) (st : ADC) : ADC :=
  { st with trace := st.trace ++ [e] }

/-- Modelled from the spec: the macro `INACTIVATE_CHANNEL( d, id )` of
`elua_adc.h`, which is not part of the sources.  It removes channel `id`
from the device's active set; the set is the 32-bit word `ch_active` and the
macro clears bit `id` of it: `d->ch_active &= ~( ( u32 )1 << ( id ) )`. -/
def INACTIVATE_CHANNEL (ch_active id : Nat) : Nat :=
  ch_active &&& (4294967295 ^^^ ((1 <<< id) % 4294967296))

/-- `platform_adc_stop( id )`, lines 706-717. -/
def platform_adc_stop (id : Nat) (st : ADC) : ADC :=
  let s := adc_get_ch_state st id
  -- s->op_pending = 0;
  let st := set_ch id { s with op_pending := 0 } st
  -- INACTIVATE_CHANNEL( d, id );
  let st := { st with d := { st.d with ch_active := INACTIVATE_CHANNEL st.d.ch_active id } }
  -- if( d->ch_active == 0 ) d->running = 0;
  if st.d.ch_active = 0 then { st with d := { st.d with running := 0 } } else st

/-- Body of the loop of `platform_adc_update_sequence`, lines 731-733. -/
def update_body (st : ADC) : ADC :=
  let id := (adc_get_ch_state st (st.d.ch_state.getD st.d.seq_ctr 0)).id
  let st := emit (Event.adc_enable id) st
  let st := emit (Event.gpio_enable_module id) st
  { st with d := { st.d with seq_ctr := st.d.seq_ctr + 1 } }

/-- The loop `while( d->seq_ctr < d->seq_len )` of
`platform_adc_update_sequence`; the first argument bounds the number of
iterations. -/
def update_loop : Nat → ADC → ADC
  | 0, st => st
  | n + 1, st => if st.d.seq_ctr < st.d.seq_len then update_loop n (update_body st) else st

/-- Lines 723-728 of `platform_adc_update_sequence`: reset and configuration
of the converter, and the reset of the cursor before the loop. -/
def update_reset (st : ADC) : ADC :=
  -- adc->cr = AVR32_ADC_SWRST_MASK;
  let st := emit Event.cr_swrst st
  -- adc->ier = AVR32_ADC_DRDY_MASK;
  let st := emit Event.ier_drdy st
  let st := emit Event.adc_configure st
  { st with d := { st.d with seq_ctr := 0 } }

/-- `platform_adc_update_sequence( )`, lines 719-738: the state and the
returned code. -/
def platform_adc_update_sequence (st : ADC) : Int × ADC :=
  let st := update_reset st
  let st := update_loop st.d.seq_len st
  let st := { st with d := { st.d with seq_ctr := 0 } }
  (PLATFORM_OK, st)

/-- Modelled from the spec: the channels the rebuild collects, "every channel
with `op_pending == true` ... in ascending id order". -/
def active_list (st : ADC) : List Nat :=
  (List.range NUM_ADC).filter (fun c => (adc_get_ch_state st c).op_pending = 1)

/-- Modelled from the spec: `adc_update_dev_sequence( 0 )` of `elua_adc.c`,
which is not part of the sources; the spec's `rebuild_active_set()`: it
"scans all Channel States, collects every channel with `op_pending == true`
into `active_channels` in ascending id order, resets `sequence_cursor` to 0,
and programs the hardware with exactly this list".  The list is written to
the front of the array `ch_state`, its length to `seq_len`; programming the
hardware is `platform_adc_update_sequence`. -/
def adc_update_dev_sequence (st : ADC) : ADC :=
  let l := active_list st
  let st := { st with d := { st.d with ch_state := l ++ st.d.ch_state.drop l.length,
                                        seq_len := l.length, seq_ctr := 0 } }
  (platform_adc_update_sequence st).2

/-- Conversion-complete check `adc_check_eoc( adc, id )`. -/
def adc_check_eoc (st : ADC) (id : Nat) : Bool :=
  decide (id ∈ st.eoc)

/-- Read of the channel result `adc_get_value( adc, id )`: the value of the
data register and the state in which the channel's conversion-complete flag
is cleared by the read. -/
def adc_get_value (st : ADC) (id : Nat) : Nat × ADC :=
  (st.cdr.getD id 0, { st with eoc := st.eoc.filter (fun c => c ≠ id) })

/-- Modelled from the spec: `adc_smooth_data( id )` of `elua_adc.c`, which is
not part of the sources; the spec's smoothing filter as a simple moving
average over a fixed-depth history.  The raw value (read through
`value_ptr`) is folded into the history, which keeps the last
`2 ^ logsmoothlen` values, and `smooth_ready` is set once that many values
have been fed. -/
def adc_smooth_data (id : Nat) (st : ADC) : ADC :=
  let s := adc_get_ch_state st id
  let v := st.d.sample_buf.getD s.value_ptr 0
  let w := 2 ^ s.logsmoothlen
  let h := s.smoothbuf ++ [v]
  let h := h.drop (h.length - w)
  set_ch id { s with smoothbuf := h, smoothsum := h.sum, smoothidx := s.smoothidx + 1,
                     smooth_ready := if s.smoothidx + 1 ≥ w then 1 else s.smooth_ready } st

/-- Push of one sample to the streaming sink: `buf_write( BUF_ID_ADC, id, value_ptr )`. -/
def buf_write (id : Nat) (st : ADC) : ADC :=
  let s := adc_get_ch_state st id
  let v := st.d.sample_buf.getD s.value_ptr 0
  emit (Event.buf_write id v) { st with buf := st.buf ++ [(id, v)] }

/-- Number of samples of channel `id` the streaming sink holds. -/
def sink_count (id : Nat) (st : ADC) : Nat :=
  st.buf.countP (fun e => decide (e.1 = id))

/-- Modelled from the spec: `adc_samples_available( id )` of `elua_adc.c`,
which is not part of the sources.  The engine "hands finished samples to a
consumer (either a single "latest value" slot or a streaming sink)": the
samples available for a channel are those the sink holds for it, and the one
in its latest-value slot while `value_fresh` is set.  The function reads the
state and writes nothing; while the sink is not read, its result for a
channel that streams to the sink is the spec's running count
`samples_captured`. -/
def adc_samples_available (st : ADC) (id : Nat) : Nat :=
  sink_count id st + (if (adc_get_ch_state st id).value_fresh = 1 then 1 else 0)

/-- Hardware start trigger `adc_start( adc )`. -/
def adc_start (st : ADC) : ADC :=
  emit Event.adc_start st

/-- Lines 753-757 of `adc_int_handler`: the raw value of the channel at the
cursor is stored in its slot of `sample_buf`, `value_fresh` is set and `LCDR`
is read. -/
def adc_capture_read (st : ADC) : ADC :=
  let p := st.d.ch_state.getD st.d.seq_ctr 0
  -- d->sample_buf[ d->seq_ctr ] = ( u16 )adc_get_value( adc, s->id );
  let r := adc_get_value st (adc_get_ch_state st p).id
  let st := r.2
  let st := { st with d := { st.d with sample_buf := st.d.sample_buf.set st.d.seq_ctr (r.1 % 65536) } }
  -- s->value_fresh = 1;
  let st := set_ch p { adc_get_ch_state st p with value_fresh := 1 } st
  -- i = adc->lcdr;
  emit Event.read_lcdr st

/-- Lines 759-767 of `adc_int_handler`: the stored value goes to the
smoothing filter, or to the sink, or stays in its slot.  `BUF_ENABLE_ADC` is
the compile-time switch of the sink. -/
def adc_capture_route (BUF_ENABLE_ADC : Bool) (st : ADC) : ADC :=
  let p := st.d.ch_state.getD st.d.seq_ctr 0
  let s := adc_get_ch_state st p
  if s.logsmoothlen > 0 ∧ s.smooth_ready = 0 then
    adc_smooth_data s.id (emit (Event.adc_smooth_data s.id) st)
  else if BUF_ENABLE_ADC = true ∧ s.reqsamples > 1 then
    let st := buf_write s.id st
    set_ch p { adc_get_ch_state st p with value_fresh := 0 } st
  else st

/-- Lines 769-771 of `adc_int_handler`: the channel is stopped when it has
its requested samples and is not free-running. -/
def adc_capture_finish (st : ADC) : ADC :=
  let s := adc_get_ch_state st (st.d.ch_state.getD st.d.seq_ctr 0)
  -- if ( adc_samples_available( s->id ) >= s->reqsamples && s->freerunning == 0 )
  if adc_samples_available st s.id ≥ s.reqsamples ∧ s.freerunning = 0 then
    platform_adc_stop s.id (emit (Event.platform_adc_stop s.id) st)
  else st

/-- Lines 753-771 of `adc_int_handler`: the capture of the channel at the
cursor, entered when its conversion-complete flag is set. -/
def adc_capture (BUF_ENABLE_ADC : Bool) (st : ADC) : ADC :=
  adc_capture_finish (adc_capture_route BUF_ENABLE_ADC (adc_capture_read st))

/-- Body of the loop of `adc_int_handler`, lines 749-774. -/
def adc_int_body (BUF_ENABLE_ADC : Bool) (st : ADC) : ADC :=
  let p := st.d.ch_state.getD st.d.seq_ctr 0
  let st := if adc_check_eoc st (adc_get_ch_state st p).id = true
            then adc_capture BUF_ENABLE_ADC st else st
  { st with d := { st.d with seq_ctr := st.d.seq_ctr + 1 } }

/-- The loop `while( d->seq_ctr < d->seq_len )` of `adc_int_handler`; the
first argument bounds the number of iterations. -/
def adc_int_loop (BUF_ENABLE_ADC : Bool) : Nat → ADC → ADC
  | 0, st => st
  | n + 1, st =>
    if st.d.seq_ctr < st.d.seq_len then adc_int_loop BUF_ENABLE_ADC n (adc_int_body BUF_ENABLE_ADC st)
    else st

/-- Line 746 of `adc_int_handler`: the cursor is reset before the loop. -/
def adc_int_entry (st : ADC) : ADC :=
  { st with d := { st.d with seq_ctr := 0 } }

/-- State of `adc_int_handler` after its capture loop and the reset of the
cursor, lines 746-776. -/
def adc_int_captured (BUF_ENABLE_ADC : Bool) (st : ADC) : ADC :=
  let st := adc_int_entry st
  let st := adc_int_loop BUF_ENABLE_ADC st.d.seq_len st
  { st with d := { st.d with seq_ctr := 0 } }

/-- Lines 778-785 of `adc_int_handler`: refresh of the sequence and restart
of the converter. -/
def adc_int_rearm (st : ADC) : ADC :=
  -- if ( d->running == 1 ) adc_update_dev_sequence( 0 );
  let st := if st.d.running = 1
            then adc_update_dev_sequence (emit Event.adc_update_dev_sequence st) else st
  -- if ( d->clocked == 0 && d->running == 1 ) adc_start( adc );
  if st.d.clocked = 0 ∧ st.d.running = 1 then adc_start st else st

/-- `adc_int_handler()`, lines 740-786. -/
def adc_int_handler (BUF_ENABLE_ADC : Bool) (st : ADC) : ADC :=
  adc_int_rearm (adc_int_captured BUF_ENABLE_ADC st)

/-- `platform_adc_start_sequence( )`, lines 795-813: the state and the
returned code. -/
def platform_adc_start_sequence (st : ADC) : Int × ADC :=
  if st.d.running ≠ 1 then
    let st := adc_update_dev_sequence (emit Event.adc_update_dev_sequence st)
    let st := { st with d := { st.d with seq_ctr := 0 } }
    let st := { st with d := { st.d with running := 1 } }
    let st := if st.d.clocked = 0 then adc_start st else st
    (PLATFORM_OK, st)
  else (PLATFORM_OK, st)

/-- One completed batch of conversions as the hardware presents it to the
handler: the channels whose conversion-complete flag is set and the content
of the data registers. -/
structure Batch where
  eoc : List Nat
  cdr : List Nat
  deriving DecidableEq, Repr

/-- The hardware completes a batch and raises the interrupt. -/
def adc_dispatch (BUF_ENABLE_ADC : Bool) (st : ADC) (b : Batch) : ADC :=
  adc_int_handler BUF_ENABLE_ADC { st with eoc := b.eoc, cdr := b.cdr }

/-- Successive interrupts, one per batch. -/
def adc_dispatch_all (BUF_ENABLE_ADC : Bool) (st : ADC) (bs : List Batch) : ADC :=
  bs.foldl (adc_dispatch BUF_ENABLE_ADC) st

/-- Conversion sequence `ch_state[0..seq_len)`, as channel pointers. -/
def adc_sequence (st : ADC) : List Nat :=
  (List.range st.d.seq_len).map (fun i => st.d.ch_state.getD i 0)

/-- The channel id `d->ch_state[ i ]->id`. -/
def seq_id (st : ADC) (i : Nat) : Nat :=
  (adc_get_ch_state st (st.d.ch_state.getD i 0)).id

/-- The driver calls with which `platform_adc_update_sequence` enables the
sequence entries `start .. start + n - 1`. -/
def enable_calls (st : ADC) (start n : Nat) : List Event :=
  (List.range' start n).flatMap
    (fun i => [Event.adc_enable (seq_id st i), Event.gpio_enable_module (seq_id st i)])

/-- Number of calls of `platform_adc_stop( id )` recorded in a trace. -/
def stop_calls (id : Nat) (t : List Event) : Nat :=
  t.count (Event.platform_adc_stop id)

/-! ## Traces, frames and invariants -/

/-- The driver calls that enable the converter channel and the pin input path
of each entry of a sequence of channel pointers, in order. -/
def enable_events (st : ADC) (seq : List Nat) : List Event :=
  seq.flatMap (fun p => [Event.adc_enable (adc_get_ch_state st p).id,
                         Event.gpio_enable_module (adc_get_ch_state st p).id])

/-- Number of hardware start triggers recorded in a trace. -/
def start_triggers (t : List Event) : Nat :=
  t.count Event.adc_start

/-- Number of calls of `adc_update_dev_sequence` recorded in a trace. -/
def rebuild_calls (t : List Event) : Nat :=
  t.count Event.adc_update_dev_sequence

/-- Number of calls of `adc_smooth_data( id )` recorded in a trace. -/
def smooth_calls (id : Nat) (t : List Event) : Nat :=
  t.count (Event.adc_smooth_data id)

/-- The fields of a channel record that only a start or a stop of the channel
changes. -/
def ch_static (s : elua_adc_ch_state) : Nat × Nat × Nat × Nat × Nat :=
  (s.op_pending, s.freerunning, s.id, s.reqsamples, s.logsmoothlen)

/-- Steps that neither stop a channel nor touch the sequence: the device
state apart from the sample buffer, the static fields of every channel and
the number of recorded stop calls are the same in both states. -/
def quiet (a b : ADC) : Prop :=
  b.d.ch_state = a.d.ch_state ∧ b.d.seq_len = a.d.seq_len ∧ b.d.seq_ctr = a.d.seq_ctr ∧
  b.d.clocked = a.d.clocked ∧ b.d.running = a.d.running ∧ b.d.ch_active = a.d.ch_active ∧
  b.adc_ch_state.length = a.adc_ch_state.length ∧
  (∀ q, ch_static (adc_get_ch_state b q) = ch_static (adc_get_ch_state a q)) ∧
  (∀ c, stop_calls c b.trace = stop_calls c a.trace)

/-- Steps that leave the sequence, the cursor, the clock mode and the size of
the table as they are. -/
def seq_frame (a b : ADC) : Prop :=
  b.d.ch_state = a.d.ch_state ∧ b.d.seq_len = a.d.seq_len ∧ b.d.seq_ctr = a.d.seq_ctr ∧
  b.d.clocked = a.d.clocked ∧ b.adc_ch_state.length = a.adc_ch_state.length

/-- Well-formed table and sequence: the table has the `NUM_ADC` channels,
each with its own id, as `adc_init_ch_state` sets them up, and the sequence
points into the table. -/
def adc_wf (st : ADC) : Prop :=
  st.adc_ch_state.length = NUM_ADC ∧
  (∀ p, p < NUM_ADC → (adc_get_ch_state st p).id = p) ∧
  (∀ p ∈ adc_sequence st, p < NUM_ADC)

instance (st : ADC) : Decidable (adc_wf st) := by
  unfold adc_wf
  infer_instance

/-- Channel `c` is an active free-running channel of a running device. -/
def active_freerunning (c : Nat) (st : ADC) : Prop :=
  adc_wf st ∧ (adc_get_ch_state st c).op_pending = 1 ∧ (adc_get_ch_state st c).freerunning ≠ 0 ∧
  st.d.ch_active.testBit c = true ∧ st.d.running = 1

instance (c : Nat) (st : ADC) : Decidable (active_freerunning c st) := by
  unfold active_freerunning
  infer_instance

/-- Number of batches in which channel `c` completes a conversion. -/
def captures (c : Nat) (bs : List Batch) : Nat :=
  bs.countP (fun b => decide (c ∈ b.eoc))

/-- Channel `c` is an active bounded channel of a running device: started for
`N` samples, not free-running, without smoothing, with no sample of it in the
sink yet, and a member of the conversion sequence. -/
def active_bounded (c N : Nat) (st : ADC) : Prop :=
  adc_wf st ∧ (adc_get_ch_state st c).op_pending = 1 ∧ (adc_get_ch_state st c).freerunning = 0 ∧
  (adc_get_ch_state st c).logsmoothlen = 0 ∧ (adc_get_ch_state st c).reqsamples = N ∧
  sink_count c st = 0 ∧ c ∈ adc_sequence st ∧
  st.d.ch_active.testBit c = true ∧ st.d.running = 1

instance (c N : Nat) (st : ADC) : Decidable (active_bounded c N st) := by
  unfold active_bounded
  infer_instance

/-- Bounded channel `c` of a running device on its way to `N` samples: `k`
samples of it in the sink so far, still pending and active, and `s0` calls of
`platform_adc_stop( c )` recorded. -/
def bounded_core (c N k s0 : Nat) (st : ADC) : Prop :=
  adc_wf st ∧ (adc_get_ch_state st c).op_pending = 1 ∧ (adc_get_ch_state st c).freerunning = 0 ∧
  (adc_get_ch_state st c).logsmoothlen = 0 ∧ (adc_get_ch_state st c).reqsamples = N ∧
  sink_count c st = k ∧
  st.d.ch_active.testBit c = true ∧ st.d.running = 1 ∧ stop_calls c st.trace = s0

/-- Bounded channel `c` after the capture that made its `N` samples
available: not pending any more, and one call of `platform_adc_stop( c )`
more than the `s0` recorded before. -/
def bounded_done (c N s0 : Nat) (st : ADC) : Prop :=
  adc_wf st ∧ (adc_get_ch_state st c).op_pending = 0 ∧
  adc_samples_available st c = N ∧ stop_calls c st.trace = s0 + 1

/-- The invariant of the active set: a channel has `op_pending = 1` exactly
when its bit of `ch_active` is set. -/
def active_agree (st : ADC) : Prop :=
  ∀ c, c < NUM_ADC → ((adc_get_ch_state st c).op_pending = 1 ↔ st.d.ch_active.testBit c = true)

instance (st : ADC) : Decidable (active_agree st) := by
  unfold active_agree
  infer_instance

/-- The invariant of the spec in terms of the conversion sequence: a channel
has `op_pending = 1` exactly when it is in `ch_state[0..seq_len)`. -/
def sequence_agree (st : ADC) : Prop :=
  ∀ c, c < NUM_ADC → ((adc_get_ch_state st c).op_pending = 1 ↔ c ∈ adc_sequence st)

instance (st : ADC) : Decidable (sequence_agree st) := by
  unfold sequence_agree
  infer_instance

/-! ## States used as concrete inputs -/

/-- A channel record as `adc_init_ch_state( i )` leaves it: idle, with its id. -/
def ch_idle (i : Nat) : elua_adc_ch_state :=
  { ch_zero with id := i }

/-- A started channel `i`: `op_pending` set, with the requested number of
samples and the free-running flag of the request. -/
def ch_started (i reqsamples freerunning : Nat) : elua_adc_ch_state :=
  { ch_idle i with op_pending := 1, reqsamples := reqsamples, freerunning := freerunning }

/-- The table of the eight channels in which the listed channels are replaced
by the given records. -/
def ch_table (started : List elua_adc_ch_state) : List elua_adc_ch_state :=
  (List.range NUM_ADC).map (fun i => ((started.find? (fun s => s.id = i)).getD (ch_idle i)))

/-- A state with the given channel table, conversion sequence, active set and
`running` flag; the converter is not hardware-clocked, nothing is converted
yet and nothing has been called. -/
def adc_state (table : List elua_adc_ch_state) (seq : List Nat) (ch_active running : Nat) : ADC :=
  { d := { ch_state := seq ++ List.replicate (NUM_ADC - seq.length) 0,
           sample_buf := List.replicate NUM_ADC 0,
           clocked := 0, running := running, ch_active := ch_active,
           seq_ctr := 0, seq_len := seq.length },
    adc_ch_state := table, eoc := [], cdr := [], buf := [], trace := [] }

/-- Channel 3 started for five samples, sole active channel, device running. -/
def adc_one_bounded : ADC :=
  adc_state (ch_table [ch_started 3 5 0]) [3] 8 1

/-- Channel 1 free-running and channel 2 started for three samples, both
active, device running. -/
def adc_two_active : ADC :=
  adc_state (ch_table [ch_started 1 0 1, ch_started 2 3 0]) [1, 2] 6 1

/-- Channel 1 active with a fresh value that has not been read yet. -/
def adc_fresh_value : ADC :=
  adc_state (ch_table [{ ch_started 1 1 0 with value_fresh := 1 }]) [1] 2 1

/-- Device marked running while no channel is active, as
`platform_adc_start_sequence` leaves it when no channel was started. -/
def adc_running_empty : ADC :=
  adc_state (ch_table []) [] 0 1

/-- A batch in which the listed channels have completed with the given
values. -/
def batch_of (done : List (Nat × Nat)) : Batch :=
  { eoc := done.map Prod.fst,
    cdr := (List.range NUM_ADC).map (fun i => ((done.find? (fun p => p.1 = i)).map Prod.snd).getD 0) }

/-- Channel 3 started for five samples, with its first conversion complete
and the value 10 in its data register. -/
def adc_sink_capture : ADC :=
  { adc_one_bounded with eoc := (batch_of [(3, 10)]).eoc, cdr := (batch_of [(3, 10)]).cdr }

/-- Channel 2 started for four samples with a smoothing window of `2 ^ 2`
values that is not filled yet; its conversion is complete and its data
register holds 70000, which does not fit in 16 bits. -/
def adc_filter_capture : ADC :=
  { adc_state (ch_table [{ ch_started 2 4 0 with logsmoothlen := 2 }]) [2] 4 1 with
    eoc := (batch_of [(2, 70000)]).eoc, cdr := (batch_of [(2, 70000)]).cdr }

/-- Channel 3 started for one sample, sole active channel, with its
conversion complete. -/
def adc_last_capture : ADC :=
  { adc_state (ch_table [ch_started 3 1 0]) [3] 8 1 with
    eoc := (batch_of [(3, 10)]).eoc, cdr := (batch_of [(3, 10)]).cdr }

/-- Channels 1 (free-running) and 2 (three samples) started on a device that
is not running yet and has an empty sequence. -/
def adc_started_idle : ADC :=
  adc_state (ch_table [ch_started 1 0 1, ch_started 2 3 0]) [] 6 0

/-- Four batches in which channels 1 and 2 both complete. -/
def adc_four_batches : List Batch :=
  [batch_of [(1, 5), (2, 6)], batch_of [(1, 7), (2, 8)], batch_of [(1, 9), (2, 10)],
   batch_of [(1, 11), (2, 12)]]

/-- The five batches of the scenario of channel 3: one completed conversion
each, with the values 10, 12, 9, 11, 10. -/
def adc_five_batches : List Batch :=
  [batch_of [(3, 10)], batch_of [(3, 12)], batch_of [(3, 9)], batch_of [(3, 11)],
   batch_of [(3, 10)]]

/-! ## PWM -/

/-- Calls `platform_pwm_setup` makes to the drivers. -/
inductive PwmCall where
  | gpio_enable_module (pin : Nat)
  | pwm_channel_set_period_and_duty_cycle (id period duty : Nat)
  deriving DecidableEq, Repr

/-- `platform_pwm_setup( id, frequency, duty )`, lines 842-882: the returned
frequency and the driver calls made, in order.  `NUM_PWM` (a constant of
`platform_conf.h`, which is not part of the sources) and the value of
`pwm_get_clock_freq()` are parameters.  The variables are `u32`: the product
and the subtraction are taken modulo `2 ^ 32`.  A division by zero has no
result. -/
def platform_pwm_setup (NUM_PWM pwm_get_clock_freq : Nat) (id frequency duty : Nat) :
    Option (Nat × List PwmCall) :=
  -- if (id < 0 || id >= NUM_PWM || duty < 0 || duty > 100) return 0;
  if id ≥ NUM_PWM ∨ duty > 100 then some (0, [])
  else
    let calls := [PwmCall.gpio_enable_module id]
    let pwmclk := pwm_get_clock_freq
    -- period = pwmclk / frequency;
    if frequency = 0 then none
    else
      let period := pwmclk / frequency
      -- duty_cycle = (period * duty) / 100;
      let duty_cycle := (period * duty % 4294967296) / 100
      let calls := calls ++ [PwmCall.pwm_channel_set_period_and_duty_cycle id period
                              ((period + 4294967296 - duty_cycle) % 4294967296)]
      -- return pwmclk / period;
      if period = 0 then none
      else some (pwmclk / period, calls)

/-! ## Basic facts on the table and the active set -/

theorem getD_set_ch {α : Type} (l : List α) (i j : Nat) (a z : α) :
    (l.set i a).getD j z = if i = j ∧ i < l.length then a else l.getD j z := by
  simp only [List.getD_eq_getElem?_getD, List.getElem?_set]
  by_cases h : i = j
  · subst h
    by_cases h2 : i < l.length
    · simp [h2]
    · simp [h2, List.getElem?_eq_none (Nat.le_of_not_lt h2)]
  · simp [h]

theorem get_set_ch (st : ADC) (p q : Nat) (s : elua_adc_ch_state) :
    adc_get_ch_state (set_ch p s st) q =
      if p = q ∧ p < st.adc_ch_state.length then s else adc_get_ch_state st q := by
  simp only [adc_get_ch_state, set_ch, getD_set_ch]

theorem testBit_INACTIVATE (a id j : Nat) :
    (INACTIVATE_CHANNEL a id).testBit j = (a.testBit j && decide (j < 32) && !decide (j = id)) := by
  have h1 : (4294967295 : Nat) = 2 ^ 32 - 1 := by norm_num
  have h2 : (4294967296 : Nat) = 2 ^ 32 := by norm_num
  unfold INACTIVATE_CHANNEL
  rw [Nat.testBit_and, Nat.testBit_xor, h1, h2, Nat.testBit_two_pow_sub_one,
    Nat.testBit_mod_two_pow, Nat.one_shiftLeft, Nat.testBit_two_pow]
  by_cases hj : j < 32 <;> by_cases hi : id = j <;> simp [hj, hi, eq_comm]


theorem INACTIVATE_eq_zero (a id : Nat) (h : ∀ j, j ≠ id → a.testBit j = false) :
    INACTIVATE_CHANNEL a id = 0 := by
  apply Nat.eq_of_testBit_eq
  intro j
  rw [testBit_INACTIVATE, Nat.zero_testBit]
  by_cases hj : j = id
  · simp [hj]
  · simp [h j hj]

theorem INACTIVATE_eq_self (a id n : Nat) (ha : a < 2 ^ n) (hn : n ≤ 32) (hid : n ≤ id) :
    INACTIVATE_CHANNEL a id = a := by
  apply Nat.eq_of_testBit_eq
  intro j
  rw [testBit_INACTIVATE]
  by_cases hb : a.testBit j = true
  · have hjn : j < n := by
      by_contra hc
      have hlt : a < 2 ^ j := lt_of_lt_of_le ha (Nat.pow_le_pow_right (by norm_num) (Nat.le_of_not_lt hc))
      rw [Nat.testBit_lt_two_pow hlt] at hb
      exact Bool.noConfusion hb
    have h32 : j < 32 := by omega
    have hne : j ≠ id := by omega
    simp [hb, h32, hne]
  · simp only [Bool.not_eq_true] at hb
    simp [hb]

/-! ## Frame of `platform_adc_stop` -/

theorem stop_ch_active (id : Nat) (st : ADC) :
    (platform_adc_stop id st).d.ch_active = INACTIVATE_CHANNEL st.d.ch_active id := by
  unfold platform_adc_stop
  simp only [set_ch]
  split_ifs <;> rfl

theorem stop_running (id : Nat) (st : ADC) :
    (platform_adc_stop id st).d.running =
      if INACTIVATE_CHANNEL st.d.ch_active id = 0 then 0 else st.d.running := by
  unfold platform_adc_stop
  simp only [set_ch]
  split_ifs <;> rfl

theorem stop_table (id : Nat) (st : ADC) :
    (platform_adc_stop id st).adc_ch_state =
      st.adc_ch_state.set id { adc_get_ch_state st id with op_pending := 0 } := by
  unfold platform_adc_stop
  simp only [set_ch]
  split_ifs <;> rfl

theorem stop_get (id q : Nat) (st : ADC) :
    adc_get_ch_state (platform_adc_stop id st) q =
      if id = q ∧ id < st.adc_ch_state.length
      then { adc_get_ch_state st id with op_pending := 0 } else adc_get_ch_state st q := by
  simp only [adc_get_ch_state, stop_table, getD_set_ch]

/-- C2: `platform_adc_stop( id )` clears `running` when `id` was the last
member of the active set `ch_active` (the set is empty afterwards), and
leaves `running` at 1 when it was 1 and another channel is still active;
that channel stays in the active set. -/
theorem platform_adc_stop_running (id : Nat) (st : ADC) :
    ((∀ j, j ≠ id → st.d.ch_active.testBit j = false) →
        (platform_adc_stop id st).d.ch_active = 0 ∧ (platform_adc_stop id st).d.running = 0) ∧
    (∀ j, st.d.running = 1 → j ≠ id → j < 32 → st.d.ch_active.testBit j = true →
        (platform_adc_stop id st).d.running = 1 ∧
        (platform_adc_stop id st).d.ch_active.testBit j = true) := by
  constructor
  · intro h
    rw [stop_ch_active, stop_running, INACTIVATE_eq_zero _ _ h]
    simp
  · intro j hr hj h32 hb
    have hbit : (INACTIVATE_CHANNEL st.d.ch_active id).testBit j = true := by
      rw [testBit_INACTIVATE]; simp [hb, h32, hj]
    have hne : INACTIVATE_CHANNEL st.d.ch_active id ≠ 0 := by
      intro h0
      rw [h0, Nat.zero_testBit] at hbit
      exact Bool.noConfusion hbit
    rw [stop_ch_active, stop_running]
    simp [hne, hr, hbit]

/-- C4 (as the code has it): after `platform_adc_stop( id )` channel `id` has
`op_pending = 0`, and its `value_fresh` is what it was before the call. -/
theorem platform_adc_stop_clears_op_pending (id : Nat) (st : ADC) :
    (adc_get_ch_state (platform_adc_stop id st) id).op_pending = 0 ∧
    (adc_get_ch_state (platform_adc_stop id st) id).value_fresh =
      (adc_get_ch_state st id).value_fresh := by
  rw [stop_get]
  by_cases h : id < st.adc_ch_state.length
  · simp [h]
  · have hz : adc_get_ch_state st id = ch_zero := by
      simp [adc_get_ch_state, List.getD_eq_getElem?_getD, List.getElem?_eq_none (Nat.le_of_not_lt h)]
    simp [h, hz, ch_zero]


/-- Witness of C2: with channels 1 and 2 active, stopping channel 2 leaves
channel 1 active and `running = 1`; stopping the only active channel 3
empties the active set and clears `running`. -/
theorem platform_adc_stop_running_witness :
    ((platform_adc_stop 2 adc_two_active).d.running = 1 ∧
      (platform_adc_stop 2 adc_two_active).d.ch_active.testBit 1 = true) ∧
    ((platform_adc_stop 3 adc_one_bounded).d.ch_active = 0 ∧
      (platform_adc_stop 3 adc_one_bounded).d.running = 0) :=
  ⟨(platform_adc_stop_running 2 adc_two_active).2 1 (by decide) (by decide) (by decide) (by decide),
   (platform_adc_stop_running 3 adc_one_bounded).1 (by
      intro j hj
      have h8 : adc_one_bounded.d.ch_active = 2 ^ 3 := by decide
      rw [h8, Nat.testBit_two_pow]
      simpa using fun h => hj h.symm)⟩

/-- Counterexample to C4: channel 1 holds a fresh value; after
`platform_adc_stop( 1 )` its `value_fresh` is still 1. -/
theorem platform_adc_stop_keeps_value_fresh :
    ¬ ((adc_get_ch_state (platform_adc_stop 1 adc_fresh_value) 1).op_pending = 0 ∧
       (adc_get_ch_state (platform_adc_stop 1 adc_fresh_value) 1).value_fresh = 0) := by
  decide

theorem enable_calls_succ (st : ADC) (c k : Nat) :
    enable_calls st c (k + 1) =
      [Event.adc_enable (seq_id st c), Event.gpio_enable_module (seq_id st c)] ++
        enable_calls st (c + 1) k := by
  simp [enable_calls, List.range'_succ]

theorem enable_calls_body (st : ADC) (c k : Nat) :
    enable_calls (update_body st) c k = enable_calls st c k := rfl

theorem update_loop_eq (n : Nat) (st : ADC) :
    update_loop n st =
      { st with
        d := { st.d with seq_ctr := st.d.seq_ctr + min n (st.d.seq_len - st.d.seq_ctr) },
        trace := st.trace ++ enable_calls st st.d.seq_ctr (min n (st.d.seq_len - st.d.seq_ctr)) } := by
  induction n generalizing st with
  | zero =>
    obtain ⟨⟨a1, a2, a3, a4, a5, a6, a7⟩, b, c, e, f, g⟩ := st
    simp [update_loop, enable_calls]
  | succ n ih =>
    unfold update_loop
    by_cases h : st.d.seq_ctr < st.d.seq_len
    · rw [if_pos h, ih, enable_calls_body]
      have hm : min (n + 1) (st.d.seq_len - st.d.seq_ctr) =
          min n (st.d.seq_len - (st.d.seq_ctr + 1)) + 1 := by omega
      rw [hm, enable_calls_succ]
      obtain ⟨⟨a1, a2, a3, a4, a5, a6, a7⟩, b, c, e, f, g⟩ := st
      simp [update_body, emit, seq_id, adc_get_ch_state]
      omega
    · rw [if_neg h]
      have hm : min (n + 1) (st.d.seq_len - st.d.seq_ctr) = 0 := by omega
      rw [hm]
      obtain ⟨⟨a1, a2, a3, a4, a5, a6, a7⟩, b, c, e, f, g⟩ := st
      simp [enable_calls]

theorem update_sequence_eq (st : ADC) :
    (platform_adc_update_sequence st).2 =
      { st with
        d := { st.d with seq_ctr := 0 },
        trace := st.trace ++ [Event.cr_swrst, Event.ier_drdy, Event.adc_configure] ++
          enable_calls st 0 st.d.seq_len } := by
  unfold platform_adc_update_sequence
  simp only [update_loop_eq]
  obtain ⟨⟨a1, a2, a3, a4, a5, a6, a7⟩, b, c, e, f, g⟩ := st
  simp [update_reset, emit, enable_calls, seq_id, adc_get_ch_state]

/-- C8: `platform_adc_update_sequence` terminates for every `seq_len` (its
loop ends on its own condition, and a larger iteration bound gives the same
state), returns `PLATFORM_OK`, leaves `seq_ctr = 0`, changes nothing else of
the device and channel state, and its driver calls are the reset and
configuration of the converter followed by `adc_enable` and
`gpio_enable_module` for `ch_state[0]`, ..., `ch_state[seq_len-1]`, in that
order, once per entry, and no other. -/
theorem platform_adc_update_sequence_programs (st : ADC) :
    (∀ n, st.d.seq_len ≤ n →
      update_loop n (update_reset st) = update_loop st.d.seq_len (update_reset st)) ∧
    ¬ ((update_loop st.d.seq_len (update_reset st)).d.seq_ctr <
        (update_loop st.d.seq_len (update_reset st)).d.seq_len) ∧
    (platform_adc_update_sequence st).1 = PLATFORM_OK ∧
    (platform_adc_update_sequence st).2 =
      { st with
        d := { st.d with seq_ctr := 0 },
        trace := st.trace ++ [Event.cr_swrst, Event.ier_drdy, Event.adc_configure] ++
          enable_events st (adc_sequence st) } ∧
    (platform_adc_update_sequence st).2.d.seq_len = st.d.seq_len ∧
    adc_sequence (platform_adc_update_sequence st).2 = adc_sequence st ∧
    (platform_adc_update_sequence st).2.d.seq_ctr = 0 := by
  have hr : (update_reset st).d.seq_ctr = 0 := rfl
  have hl : (update_reset st).d.seq_len = st.d.seq_len := rfl
  refine ⟨?_, ?_, rfl, ?_, ?_, ?_, ?_⟩
  · intro n hn
    rw [update_loop_eq n, update_loop_eq st.d.seq_len, hr, hl]
    have : min n (st.d.seq_len - 0) = min st.d.seq_len (st.d.seq_len - 0) := by omega
    rw [this]
  · rw [update_loop_eq, hr, hl]
    simp
  · rw [update_sequence_eq]
    simp [enable_calls, enable_events, adc_sequence, seq_id, List.range_eq_range', List.flatMap_map]
  · rw [update_sequence_eq]
  · rw [update_sequence_eq]
    rfl
  · rw [update_sequence_eq]

/-! ## The rebuild -/

theorem sequence_of_append (l rest : List Nat) :
    (List.range l.length).map (fun i => (l ++ rest).getD i 0) = l := by
  apply List.ext_getElem
  · simp
  · intro i h1 h2
    simp at h1
    simp [List.getD_eq_getElem?_getD, List.getElem?_append_left h1, List.getElem?_eq_getElem h1]

theorem enable_calls_eq (st : ADC) :
    enable_calls st 0 st.d.seq_len = enable_events st (adc_sequence st) := by
  simp [enable_calls, enable_events, adc_sequence, seq_id, List.range_eq_range', List.flatMap_map]

theorem rebuild_eq (st : ADC) :
    adc_update_dev_sequence st =
      { st with
        d := { st.d with ch_state := active_list st ++ st.d.ch_state.drop (active_list st).length,
                         seq_len := (active_list st).length, seq_ctr := 0 },
        trace := st.trace ++ [Event.cr_swrst, Event.ier_drdy, Event.adc_configure] ++
          enable_events st (active_list st) } := by
  unfold adc_update_dev_sequence
  simp only [update_sequence_eq]
  have h := enable_calls_eq
    { st with d := { st.d with ch_state := active_list st ++ st.d.ch_state.drop (active_list st).length,
                               seq_len := (active_list st).length, seq_ctr := 0 } }
  simp only [adc_sequence, sequence_of_append] at h
  simp only [h]
  rfl

theorem rebuild_sequence (st : ADC) :
    adc_sequence (adc_update_dev_sequence st) = active_list st := by
  rw [rebuild_eq]
  simp only [adc_sequence, sequence_of_append]


theorem count_enable_events (st : ADC) (seq : List Nat) (e : Event)
    (h1 : ∀ i, e ≠ Event.adc_enable i) (h2 : ∀ i, e ≠ Event.gpio_enable_module i) :
    (enable_events st seq).count e = 0 := by
  rw [List.count_eq_zero]
  intro hm
  simp only [enable_events, List.mem_flatMap, List.mem_cons, List.mem_singleton,
    List.not_mem_nil, or_false] at hm
  obtain ⟨p, _, hp | hp⟩ := hm
  · exact h1 _ hp
  · exact h2 _ hp

theorem rebuild_start_triggers (st : ADC) :
    start_triggers (adc_update_dev_sequence st).trace = start_triggers st.trace := by
  rw [rebuild_eq]
  simp only [start_triggers, List.count_append]
  rw [count_enable_events _ _ _ (by intro i h; cases h) (by intro i h; cases h)]
  simp [List.count_cons]

theorem rebuild_rebuild_calls (st : ADC) :
    rebuild_calls (adc_update_dev_sequence st).trace = rebuild_calls st.trace := by
  rw [rebuild_eq]
  simp only [rebuild_calls, List.count_append]
  rw [count_enable_events _ _ _ (by intro i h; cases h) (by intro i h; cases h)]
  simp [List.count_cons]

theorem rebuild_stop_calls (c : Nat) (st : ADC) :
    stop_calls c (adc_update_dev_sequence st).trace = stop_calls c st.trace := by
  rw [rebuild_eq]
  simp only [stop_calls, List.count_append]
  rw [count_enable_events _ _ _ (by intro i h; cases h) (by intro i h; cases h)]
  simp [List.count_cons]

/-- C5: `platform_adc_start_sequence` returns `PLATFORM_OK`; called with
`running = 1` it leaves the whole state, the trace of calls included, as it
was; called with `running != 1` it calls the rebuild once, after which the
sequence is the rebuilt one, `seq_ctr = 0` and `running = 1`, the channel
table is unchanged, and the hardware start trigger is issued once if
`clocked = 0` and not at all otherwise. -/
theorem platform_adc_start_sequence_spec (st : ADC) :
    (platform_adc_start_sequence st).1 = PLATFORM_OK ∧
    (st.d.running = 1 → (platform_adc_start_sequence st).2 = st) ∧
    (st.d.running ≠ 1 →
      adc_sequence (platform_adc_start_sequence st).2 = active_list st ∧
      (platform_adc_start_sequence st).2.d.seq_len = (active_list st).length ∧
      (platform_adc_start_sequence st).2.d.seq_ctr = 0 ∧
      (platform_adc_start_sequence st).2.d.running = 1 ∧
      (platform_adc_start_sequence st).2.adc_ch_state = st.adc_ch_state ∧
      rebuild_calls (platform_adc_start_sequence st).2.trace = rebuild_calls st.trace + 1 ∧
      start_triggers (platform_adc_start_sequence st).2.trace =
        start_triggers st.trace + (if st.d.clocked = 0 then 1 else 0) ∧
      (platform_adc_start_sequence st).2.trace =
        st.trace ++ [Event.adc_update_dev_sequence, Event.cr_swrst, Event.ier_drdy,
          Event.adc_configure] ++ enable_events st (active_list st) ++
          (if st.d.clocked = 0 then [Event.adc_start] else [])) := by
  refine ⟨?_, ?_, ?_⟩
  · unfold platform_adc_start_sequence
    split_ifs <;> rfl
  · intro h
    unfold platform_adc_start_sequence
    simp [h]
  · intro h
    have hal : active_list (emit Event.adc_update_dev_sequence st) = active_list st := rfl
    have hev : ∀ l, enable_events (emit Event.adc_update_dev_sequence st) l = enable_events st l :=
      fun _ => rfl
    unfold platform_adc_start_sequence
    rw [if_pos h]
    simp only [rebuild_eq, hal, hev]
    have hs := sequence_of_append (active_list st) (st.d.ch_state.drop (active_list st).length)
    simp only [List.getD_eq_getElem?_getD] at hs
    by_cases hc : st.d.clocked = 0
    · simp [hc, adc_start, emit, adc_sequence, hs, rebuild_calls, start_triggers,
        List.count_append, count_enable_events, List.count_cons]
    · simp [hc, adc_start, emit, adc_sequence, hs, rebuild_calls, start_triggers,
        List.count_append, count_enable_events, List.count_cons]

/-! ## Steps of the capture that stop nothing -/

theorem quiet_refl (a : ADC) : quiet a a :=
  ⟨rfl, rfl, rfl, rfl, rfl, rfl, rfl, fun _ => rfl, fun _ => rfl⟩

theorem quiet_trans {a b c : ADC} (h1 : quiet a b) (h2 : quiet b c) : quiet a c := by
  obtain ⟨a1, a2, a3, a4, a5, a6, a7, a8, a9⟩ := h1
  obtain ⟨b1, b2, b3, b4, b5, b6, b7, b8, b9⟩ := h2
  exact ⟨b1.trans a1, b2.trans a2, b3.trans a3, b4.trans a4, b5.trans a5, b6.trans a6,
    b7.trans a7, fun q => (b8 q).trans (a8 q), fun q => (b9 q).trans (a9 q)⟩

theorem quiet_set_ch (st : ADC) (p : Nat) (s : elua_adc_ch_state)
    (h : ch_static s = ch_static (adc_get_ch_state st p)) : quiet st (set_ch p s st) := by
  refine ⟨rfl, rfl, rfl, rfl, rfl, rfl, ?_, ?_, fun _ => rfl⟩
  · simp [set_ch]
  · intro q
    rw [get_set_ch]
    split_ifs with hq
    · rw [h, hq.1]
    · rfl

theorem quiet_emit (st : ADC) (e : Event) (h : ∀ i, e ≠ Event.platform_adc_stop i) :
    quiet st (emit e st) := by
  refine ⟨rfl, rfl, rfl, rfl, rfl, rfl, rfl, fun _ => rfl, ?_⟩
  intro c
  simp only [emit, stop_calls, List.count_append]
  rw [List.count_singleton]
  simp [h c]

theorem quiet_read (st : ADC) : quiet st (adc_capture_read st) := by
  unfold adc_capture_read
  simp only []
  refine quiet_trans ?_ (quiet_emit _ _ (by intro i h; cases h))
  refine quiet_trans ?_ (quiet_set_ch _ _ _ rfl)
  exact ⟨rfl, rfl, rfl, rfl, rfl, rfl, rfl, fun _ => rfl, fun _ => rfl⟩

theorem quiet_smooth (id : Nat) (st : ADC) : quiet st (adc_smooth_data id st) := by
  unfold adc_smooth_data
  exact quiet_set_ch _ _ _ rfl

theorem quiet_buf_write (id : Nat) (st : ADC) : quiet st (buf_write id st) := by
  unfold buf_write
  simp only []
  refine quiet_trans ?_ (quiet_emit _ _ (by intro i h; cases h))
  exact ⟨rfl, rfl, rfl, rfl, rfl, rfl, rfl, fun _ => rfl, fun _ => rfl⟩

theorem quiet_route (B : Bool) (st : ADC) : quiet st (adc_capture_route B st) := by
  unfold adc_capture_route
  simp only []
  split_ifs
  · exact quiet_trans (quiet_emit _ _ (by intro i h; cases h)) (quiet_smooth _ _)
  · exact quiet_trans (quiet_buf_write _ _) (quiet_set_ch _ _ _ rfl)
  · exact quiet_refl _

/-! ## Frame of the capture loop -/

theorem seq_frame_trans {a b c : ADC} (h1 : seq_frame a b) (h2 : seq_frame b c) :
    seq_frame a c := by
  obtain ⟨a1, a2, a3, a4, a5⟩ := h1
  obtain ⟨b1, b2, b3, b4, b5⟩ := h2
  exact ⟨b1.trans a1, b2.trans a2, b3.trans a3, b4.trans a4, b5.trans a5⟩

theorem seq_frame_of_quiet {a b : ADC} (h : quiet a b) : seq_frame a b :=
  ⟨h.1, h.2.1, h.2.2.1, h.2.2.2.1, h.2.2.2.2.2.2.1⟩

theorem seq_frame_stop (id : Nat) (st : ADC) : seq_frame st (platform_adc_stop id st) := by
  unfold platform_adc_stop
  simp only [set_ch]
  split_ifs <;> exact ⟨rfl, rfl, rfl, rfl, by simp⟩

theorem seq_frame_emit (e : Event) (st : ADC) : seq_frame st (emit e st) :=
  ⟨rfl, rfl, rfl, rfl, rfl⟩

theorem seq_frame_finish (st : ADC) : seq_frame st (adc_capture_finish st) := by
  unfold adc_capture_finish
  simp only []
  split_ifs
  · exact seq_frame_trans (seq_frame_emit _ _) (seq_frame_stop _ _)
  · exact ⟨rfl, rfl, rfl, rfl, rfl⟩

theorem seq_frame_capture (B : Bool) (st : ADC) : seq_frame st (adc_capture B st) := by
  unfold adc_capture
  exact seq_frame_trans (seq_frame_of_quiet (quiet_trans (quiet_read st) (quiet_route B _)))
    (seq_frame_finish _)

theorem body_frame (B : Bool) (st : ADC) :
    (adc_int_body B st).d.ch_state = st.d.ch_state ∧
    (adc_int_body B st).d.seq_len = st.d.seq_len ∧
    (adc_int_body B st).d.seq_ctr = st.d.seq_ctr + 1 ∧
    (adc_int_body B st).d.clocked = st.d.clocked ∧
    (adc_int_body B st).adc_ch_state.length = st.adc_ch_state.length := by
  unfold adc_int_body
  simp only []
  split_ifs
  · obtain ⟨h1, h2, h3, h4, h5⟩ := seq_frame_capture B st
    exact ⟨h1, h2, by simp [h3], h4, h5⟩
  · exact ⟨rfl, rfl, rfl, rfl, rfl⟩

theorem int_loop_frame (B : Bool) (n : Nat) (st : ADC) :
    (adc_int_loop B n st).d.ch_state = st.d.ch_state ∧
    (adc_int_loop B n st).d.seq_len = st.d.seq_len ∧
    (adc_int_loop B n st).d.seq_ctr = st.d.seq_ctr + min n (st.d.seq_len - st.d.seq_ctr) ∧
    (adc_int_loop B n st).d.clocked = st.d.clocked ∧
    (adc_int_loop B n st).adc_ch_state.length = st.adc_ch_state.length := by
  induction n generalizing st with
  | zero => simp [adc_int_loop]
  | succ n ih =>
    unfold adc_int_loop
    by_cases h : st.d.seq_ctr < st.d.seq_len
    · rw [if_pos h]
      obtain ⟨h1, h2, h3, h4, h5⟩ := ih (adc_int_body B st)
      obtain ⟨b1, b2, b3, b4, b5⟩ := body_frame B st
      refine ⟨h1.trans b1, h2.trans b2, ?_, h4.trans b4, h5.trans b5⟩
      rw [h3, b2, b3]
      omega
    · rw [if_neg h]
      refine ⟨rfl, rfl, ?_, rfl, rfl⟩
      omega

theorem captured_frame (B : Bool) (st : ADC) :
    (adc_int_captured B st).d.ch_state = st.d.ch_state ∧
    (adc_int_captured B st).d.seq_len = st.d.seq_len ∧
    (adc_int_captured B st).d.seq_ctr = 0 ∧
    (adc_int_captured B st).d.clocked = st.d.clocked ∧
    (adc_int_captured B st).adc_ch_state.length = st.adc_ch_state.length := by
  obtain ⟨h1, h2, _, h4, h5⟩ := int_loop_frame B (adc_int_entry st).d.seq_len (adc_int_entry st)
  exact ⟨h1, h2, rfl, h4, h5⟩

theorem rearm_eq (c : ADC) :
    adc_int_rearm c =
      if c.d.running = 1 then
        (if c.d.clocked = 0
         then adc_start (adc_update_dev_sequence (emit Event.adc_update_dev_sequence c))
         else adc_update_dev_sequence (emit Event.adc_update_dev_sequence c))
      else c := by
  unfold adc_int_rearm
  by_cases hr : c.d.running = 1
  · have h1 : (adc_update_dev_sequence (emit Event.adc_update_dev_sequence c)).d.running = 1 := by
      rw [rebuild_eq]; exact hr
    have h2 : (adc_update_dev_sequence (emit Event.adc_update_dev_sequence c)).d.clocked =
        c.d.clocked := by
      rw [rebuild_eq]; rfl
    simp only [hr, if_true, h1, h2, and_true]
  · simp [hr]

theorem count_emit (e x : Event) (st : ADC) :
    (emit x st).trace.count e = st.trace.count e + (if x = e then 1 else 0) := by
  simp only [emit, List.count_append, List.count_singleton]
  by_cases h : x = e <;> simp [h]

theorem rearm_rebuild_calls (c : ADC) :
    rebuild_calls (adc_int_rearm c).trace =
      rebuild_calls c.trace + (if c.d.running = 1 then 1 else 0) := by
  rw [rearm_eq]
  split_ifs with hr hc
  · simp only [adc_start, rebuild_calls, count_emit]
    have := rebuild_rebuild_calls (emit Event.adc_update_dev_sequence c)
    simp only [rebuild_calls, count_emit] at this
    rw [this]
    simp
  · have := rebuild_rebuild_calls (emit Event.adc_update_dev_sequence c)
    simp only [rebuild_calls, count_emit] at this
    simp only [rebuild_calls]
    rw [this]
    simp
  · rfl

theorem rearm_start_triggers (c : ADC) :
    start_triggers (adc_int_rearm c).trace =
      start_triggers c.trace + (if c.d.running = 1 ∧ c.d.clocked = 0 then 1 else 0) := by
  rw [rearm_eq]
  split_ifs with hr hc h1 h2 h3
  · simp only [adc_start, start_triggers, count_emit]
    have := rebuild_start_triggers (emit Event.adc_update_dev_sequence c)
    simp only [start_triggers, count_emit] at this
    rw [this]
    simp
  · exact absurd ⟨hr, hc⟩ h1
  · exact absurd h2.2 hc
  · have := rebuild_start_triggers (emit Event.adc_update_dev_sequence c)
    simp only [start_triggers, count_emit] at this
    simp only [start_triggers]
    rw [this]
    simp
  · exact absurd h3.1 hr
  · rfl

/-- C6: with `c` the state of `adc_int_handler` after its capture loop, the
handler calls the rebuild exactly when `c.running = 1` and issues the
hardware start trigger exactly when `c.running = 1` and `c.clocked = 0`; when
`c.running` is not 1 it returns `c` itself, in which `ch_state` and `seq_len`
are those of the state the handler was entered with. -/
theorem adc_int_handler_rearm (B : Bool) (st : ADC) :
    adc_int_handler B st =
      (if (adc_int_captured B st).d.running = 1 then
        (if (adc_int_captured B st).d.clocked = 0
         then adc_start (adc_update_dev_sequence
                (emit Event.adc_update_dev_sequence (adc_int_captured B st)))
         else adc_update_dev_sequence
                (emit Event.adc_update_dev_sequence (adc_int_captured B st)))
       else adc_int_captured B st) ∧
    rebuild_calls (adc_int_handler B st).trace =
      rebuild_calls (adc_int_captured B st).trace +
        (if (adc_int_captured B st).d.running = 1 then 1 else 0) ∧
    start_triggers (adc_int_handler B st).trace =
      start_triggers (adc_int_captured B st).trace +
        (if (adc_int_captured B st).d.running = 1 ∧ (adc_int_captured B st).d.clocked = 0
         then 1 else 0) ∧
    (adc_int_captured B st).d.ch_state = st.d.ch_state ∧
    (adc_int_captured B st).d.seq_len = st.d.seq_len := by
  have hf := captured_frame B st
  exact ⟨rearm_eq _, rearm_rebuild_calls _, rearm_start_triggers _, hf.1, hf.2.1⟩

/-! ## The cursor -/

theorem int_loop_done (B : Bool) (n : Nat) (st : ADC) (h : ¬ st.d.seq_ctr < st.d.seq_len) :
    adc_int_loop B n st = st := by
  cases n with
  | zero => rfl
  | succ n => simp [adc_int_loop, h]

theorem int_loop_add (B : Bool) (n m : Nat) (st : ADC) :
    adc_int_loop B (n + m) st = adc_int_loop B m (adc_int_loop B n st) := by
  induction n generalizing st with
  | zero => simp [adc_int_loop]
  | succ n ih =>
    rw [Nat.add_right_comm]
    by_cases h : st.d.seq_ctr < st.d.seq_len
    · simp only [adc_int_loop, if_pos h]
      exact ih _
    · simp only [adc_int_loop, if_neg h]
      rw [int_loop_done B m st h]

theorem int_loop_exit (B : Bool) (st : ADC) :
    ¬ ((adc_int_loop B st.d.seq_len (adc_int_entry st)).d.seq_ctr <
        (adc_int_loop B st.d.seq_len (adc_int_entry st)).d.seq_len) := by
  obtain ⟨_, h2, h3, _, _⟩ := int_loop_frame B st.d.seq_len (adc_int_entry st)
  rw [h2, h3]
  simp [adc_int_entry]

theorem handler_seq_ctr (B : Bool) (st : ADC) : (adc_int_handler B st).d.seq_ctr = 0 := by
  unfold adc_int_handler
  rw [rearm_eq]
  split_ifs
  · simp only [adc_start, emit]
    rw [rebuild_eq]
  · rw [rebuild_eq]
  · exact (captured_frame B st).2.2.1

/-- C9: in the loops of `adc_int_handler` and of
`platform_adc_update_sequence` the cursor never exceeds `seq_len`, after
any number of iterations and whatever it was on entry; both loops end on
their own condition, within `seq_len` iterations; the cursor is 0 when
either function returns, and again after a second dispatch. -/
theorem seq_ctr_in_range (B : Bool) (st : ADC) :
    (∀ n, (adc_int_loop B n (adc_int_entry st)).d.seq_ctr ≤
            (adc_int_loop B n (adc_int_entry st)).d.seq_len) ∧
    (∀ n, (update_loop n (update_reset st)).d.seq_ctr ≤
            (update_loop n (update_reset st)).d.seq_len) ∧
    ¬ ((adc_int_loop B st.d.seq_len (adc_int_entry st)).d.seq_ctr <
        (adc_int_loop B st.d.seq_len (adc_int_entry st)).d.seq_len) ∧
    (∀ n, st.d.seq_len ≤ n →
      adc_int_loop B n (adc_int_entry st) = adc_int_loop B st.d.seq_len (adc_int_entry st)) ∧
    (adc_int_handler B st).d.seq_ctr = 0 ∧
    (platform_adc_update_sequence st).2.d.seq_ctr = 0 ∧
    (∀ b1 b2, (adc_dispatch B (adc_dispatch B st b1) b2).d.seq_ctr = 0) := by
  refine ⟨?_, ?_, int_loop_exit B st, ?_, handler_seq_ctr B st, ?_, ?_⟩
  · intro n
    obtain ⟨_, h2, h3, _, _⟩ := int_loop_frame B n (adc_int_entry st)
    rw [h2, h3]
    simp only [adc_int_entry]
    omega
  · intro n
    rw [update_loop_eq]
    simp only [update_reset, emit]
    omega
  · intro n hn
    obtain ⟨k, rfl⟩ := Nat.exists_eq_add_of_le hn
    rw [int_loop_add, int_loop_done _ _ _ (int_loop_exit B st)]
  · rw [update_sequence_eq]
  · intro b1 b2
    exact handler_seq_ctr B _

/-! ## What a capture does to the channel records -/

theorem set_ch_other (st : ADC) (p q : Nat) (s : elua_adc_ch_state) (h : q ≠ p) :
    adc_get_ch_state (set_ch p s st) q = adc_get_ch_state st q := by
  rw [get_set_ch, if_neg]
  exact fun hq => h hq.1.symm

theorem read_other (st : ADC) (q : Nat) (h : q ≠ st.d.ch_state.getD st.d.seq_ctr 0) :
    adc_get_ch_state (adc_capture_read st) q = adc_get_ch_state st q := by
  unfold adc_capture_read
  simp only []
  exact set_ch_other _ _ _ _ h

theorem read_eoc (st : ADC) :
    (adc_capture_read st).eoc =
      st.eoc.filter
        (fun c => c ≠ (adc_get_ch_state st (st.d.ch_state.getD st.d.seq_ctr 0)).id) := rfl

theorem route_eoc (B : Bool) (st : ADC) : (adc_capture_route B st).eoc = st.eoc := by
  unfold adc_capture_route
  simp only []
  split_ifs <;> rfl

theorem route_other (B : Bool) (st : ADC) (q : Nat)
    (hid : (adc_get_ch_state st (st.d.ch_state.getD st.d.seq_ctr 0)).id =
      st.d.ch_state.getD st.d.seq_ctr 0)
    (h : q ≠ st.d.ch_state.getD st.d.seq_ctr 0) :
    adc_get_ch_state (adc_capture_route B st) q = adc_get_ch_state st q := by
  unfold adc_capture_route
  simp only []
  split_ifs
  · unfold adc_smooth_data
    rw [hid]
    exact set_ch_other _ _ _ _ h
  · exact set_ch_other _ _ _ _ h
  · rfl

/-- The state of a capture before its decision to stop: value stored and
routed. -/
theorem capture_eq (B : Bool) (st : ADC) (p : Nat)
    (hp : p = st.d.ch_state.getD st.d.seq_ctr 0)
    (hid : (adc_get_ch_state st p).id = p) (_ : p < st.adc_ch_state.length) :
    ∃ m, quiet st m ∧ (∀ q, q ≠ p → adc_get_ch_state m q = adc_get_ch_state st q) ∧
      m = adc_capture_route B (adc_capture_read st) ∧
      m.eoc = st.eoc.filter (fun c => c ≠ p) ∧
      adc_capture B st =
        if adc_samples_available m p ≥ (adc_get_ch_state st p).reqsamples ∧
            (adc_get_ch_state st p).freerunning = 0
        then platform_adc_stop p (emit (Event.platform_adc_stop p) m) else m := by
  have q1 : quiet st (adc_capture_route B (adc_capture_read st)) :=
    quiet_trans (quiet_read st) (quiet_route B _)
  have hcur : (adc_capture_route B (adc_capture_read st)).d.ch_state.getD
      (adc_capture_route B (adc_capture_read st)).d.seq_ctr 0 = p := by
    rw [q1.1, q1.2.2.1, hp]
  have hcur1 : (adc_capture_read st).d.ch_state.getD (adc_capture_read st).d.seq_ctr 0 = p := by
    rw [(quiet_read st).1, (quiet_read st).2.2.1, hp]
  have hst : ∀ m, quiet st m → (adc_get_ch_state m p).id = p ∧
      (adc_get_ch_state m p).reqsamples = (adc_get_ch_state st p).reqsamples ∧
      (adc_get_ch_state m p).freerunning = (adc_get_ch_state st p).freerunning := by
    intro m hm
    have := hm.2.2.2.2.2.2.2.1 p
    simp only [ch_static, Prod.mk.injEq] at this
    exact ⟨this.2.2.1.trans hid, this.2.2.2.1, this.2.1⟩
  refine ⟨adc_capture_route B (adc_capture_read st), q1, ?_, rfl, ?_, ?_⟩
  · intro q hq
    rw [route_other B _ q (by rw [hcur1, (hst _ (quiet_read st)).1])
      (by rw [hcur1]; exact hq), read_other st q (by rw [← hp]; exact hq)]
  · rw [route_eoc, read_eoc, ← hp, hid]
  · unfold adc_capture adc_capture_finish
    simp only [hcur, (hst _ q1).1, (hst _ q1).2.1, (hst _ q1).2.2]

/-! ## Well-formedness is kept -/

theorem wf_of_frame {a b : ADC} (h1 : seq_frame a b)
    (h2 : ∀ q, (adc_get_ch_state b q).id = (adc_get_ch_state a q).id) (h : adc_wf a) :
    adc_wf b := by
  obtain ⟨w1, w2, w3⟩ := h
  refine ⟨h1.2.2.2.2.trans w1, fun p hp => (h2 p).trans (w2 p hp), ?_⟩
  have : adc_sequence b = adc_sequence a := by
    simp only [adc_sequence, h1.1, h1.2.1]
  rw [this]
  exact w3

theorem quiet_id {a b : ADC} (h : quiet a b) (q : Nat) :
    (adc_get_ch_state b q).id = (adc_get_ch_state a q).id := by
  have := h.2.2.2.2.2.2.2.1 q
  simp only [ch_static, Prod.mk.injEq] at this
  exact this.2.2.1

theorem quiet_op_pending {a b : ADC} (h : quiet a b) (q : Nat) :
    (adc_get_ch_state b q).op_pending = (adc_get_ch_state a q).op_pending := by
  have := h.2.2.2.2.2.2.2.1 q
  simp only [ch_static, Prod.mk.injEq] at this
  exact this.1

theorem quiet_freerunning {a b : ADC} (h : quiet a b) (q : Nat) :
    (adc_get_ch_state b q).freerunning = (adc_get_ch_state a q).freerunning := by
  have := h.2.2.2.2.2.2.2.1 q
  simp only [ch_static, Prod.mk.injEq] at this
  exact this.2.1

theorem quiet_reqsamples {a b : ADC} (h : quiet a b) (q : Nat) :
    (adc_get_ch_state b q).reqsamples = (adc_get_ch_state a q).reqsamples := by
  have := h.2.2.2.2.2.2.2.1 q
  simp only [ch_static, Prod.mk.injEq] at this
  exact this.2.2.2.1

theorem wf_of_quiet {a b : ADC} (h : quiet a b) (hw : adc_wf a) : adc_wf b :=
  wf_of_frame (seq_frame_of_quiet h) (quiet_id h) hw

theorem stop_id (id q : Nat) (st : ADC) :
    (adc_get_ch_state (platform_adc_stop id st) q).id = (adc_get_ch_state st q).id := by
  rw [stop_get]
  split_ifs with h
  · rw [h.1]
  · rfl

theorem wf_stop (id : Nat) (st : ADC) (hw : adc_wf st) : adc_wf (platform_adc_stop id st) :=
  wf_of_frame (seq_frame_stop id st) (stop_id id · st) hw

theorem wf_cursor (st : ADC) (hw : adc_wf st) (hc : st.d.seq_ctr < st.d.seq_len) :
    st.d.ch_state.getD st.d.seq_ctr 0 < NUM_ADC ∧
    (adc_get_ch_state st (st.d.ch_state.getD st.d.seq_ctr 0)).id =
      st.d.ch_state.getD st.d.seq_ctr 0 ∧
    st.d.ch_state.getD st.d.seq_ctr 0 < st.adc_ch_state.length := by
  have hm : st.d.ch_state.getD st.d.seq_ctr 0 ∈ adc_sequence st :=
    List.mem_map.mpr ⟨st.d.seq_ctr, List.mem_range.mpr hc, rfl⟩
  have hp := hw.2.2 _ hm
  exact ⟨hp, hw.2.1 _ hp, by rw [hw.1]; exact hp⟩

theorem wf_body (B : Bool) (st : ADC) (hw : adc_wf st) (hc : st.d.seq_ctr < st.d.seq_len) :
    adc_wf (adc_int_body B st) := by
  obtain ⟨_, hid, hlen⟩ := wf_cursor st hw hc
  have key : adc_wf (if adc_check_eoc st
      (adc_get_ch_state st (st.d.ch_state.getD st.d.seq_ctr 0)).id = true
      then adc_capture B st else st) := by
    split_ifs
    · obtain ⟨m, qm, _, _, _, heq⟩ := capture_eq B st _ rfl hid hlen
      rw [heq]
      split_ifs
      · have hm : adc_wf m := wf_of_quiet qm hw
        exact wf_stop _ _ hm
      · exact wf_of_quiet qm hw
    · exact hw
  exact key

theorem mem_active_list (st : ADC) (c : Nat) :
    c ∈ active_list st ↔ c < NUM_ADC ∧ (adc_get_ch_state st c).op_pending = 1 := by
  simp [active_list]

theorem wf_rebuild (st : ADC) (hw : adc_wf st) : adc_wf (adc_update_dev_sequence st) := by
  refine ⟨?_, ?_, ?_⟩
  · rw [rebuild_eq]; exact hw.1
  · rw [rebuild_eq]; exact hw.2.1
  · rw [rebuild_sequence]
    intro p hp
    exact ((mem_active_list st p).mp hp).1

theorem wf_int_loop (B : Bool) (n : Nat) (st : ADC) (hw : adc_wf st) :
    adc_wf (adc_int_loop B n st) := by
  induction n generalizing st with
  | zero => exact hw
  | succ n ih =>
    unfold adc_int_loop
    split_ifs with h
    · exact ih _ (wf_body B st hw h)
    · exact hw

theorem wf_handler (B : Bool) (st : ADC) (hw : adc_wf st) : adc_wf (adc_int_handler B st) := by
  have hc : adc_wf (adc_int_captured B st) := wf_int_loop B _ (adc_int_entry st) hw
  unfold adc_int_handler
  rw [rearm_eq]
  split_ifs
  · exact wf_rebuild _ hc
  · exact wf_rebuild _ hc
  · exact hc

/-! ## Stops made by the handler, seen from one channel -/

theorem stop_trace (id : Nat) (st : ADC) : (platform_adc_stop id st).trace = st.trace := by
  unfold platform_adc_stop
  simp only [set_ch]
  split_ifs <;> rfl

theorem stop_eoc (id : Nat) (st : ADC) : (platform_adc_stop id st).eoc = st.eoc := by
  unfold platform_adc_stop
  simp only [set_ch]
  split_ifs <;> rfl

theorem stop_calls_emit (c p : Nat) (st : ADC) :
    stop_calls c (emit (Event.platform_adc_stop p) st).trace =
      stop_calls c st.trace + (if p = c then 1 else 0) := by
  simp only [stop_calls, count_emit, Event.platform_adc_stop.injEq]

/-- A stop of channel `p` called by the handler, seen from another channel
`c`: its record, its bit of the active set and its count of stop calls are
unchanged, and `running` is unchanged while `c` is active. -/
theorem handler_stop_other (p c : Nat) (m : ADC) (hne : p ≠ c) (hc : c < NUM_ADC) :
    adc_get_ch_state (platform_adc_stop p (emit (Event.platform_adc_stop p) m)) c =
      adc_get_ch_state m c ∧
    stop_calls c (platform_adc_stop p (emit (Event.platform_adc_stop p) m)).trace =
      stop_calls c m.trace ∧
    (platform_adc_stop p (emit (Event.platform_adc_stop p) m)).d.ch_active.testBit c =
      m.d.ch_active.testBit c ∧
    (m.d.ch_active.testBit c = true →
      (platform_adc_stop p (emit (Event.platform_adc_stop p) m)).d.running = m.d.running) ∧
    (platform_adc_stop p (emit (Event.platform_adc_stop p) m)).eoc = m.eoc := by
  have h32 : c < 32 := lt_of_lt_of_le hc (by decide)
  have hbit : (INACTIVATE_CHANNEL m.d.ch_active p).testBit c = m.d.ch_active.testBit c := by
    rw [testBit_INACTIVATE]
    simp [h32, Ne.symm hne]
  refine ⟨?_, ?_, ?_, ?_, ?_⟩
  · rw [stop_get, if_neg (fun h => hne h.1)]
    rfl
  · rw [stop_trace, stop_calls_emit, if_neg hne]
    rfl
  · rw [stop_ch_active]
    exact hbit
  · intro hb
    rw [stop_running]
    have : INACTIVATE_CHANNEL (emit (Event.platform_adc_stop p) m).d.ch_active p ≠ 0 := by
      intro h0
      have h1 : (INACTIVATE_CHANNEL m.d.ch_active p).testBit c = true := by rw [hbit]; exact hb
      have h2 : INACTIVATE_CHANNEL m.d.ch_active p = 0 := h0
      rw [h2, Nat.zero_testBit] at h1
      exact Bool.noConfusion h1
    rw [if_neg this]
    rfl
  · rw [stop_eoc]
    rfl

/-- One iteration of the capture loop that serves another channel than `c`. -/
theorem body_other (B : Bool) (st : ADC) (c : Nat) (hw : adc_wf st)
    (hcur : st.d.seq_ctr < st.d.seq_len) (hc : c < NUM_ADC)
    (hne : st.d.ch_state.getD st.d.seq_ctr 0 ≠ c) :
    adc_get_ch_state (adc_int_body B st) c = adc_get_ch_state st c ∧
    stop_calls c (adc_int_body B st).trace = stop_calls c st.trace ∧
    (adc_int_body B st).d.ch_active.testBit c = st.d.ch_active.testBit c ∧
    (st.d.ch_active.testBit c = true → (adc_int_body B st).d.running = st.d.running) ∧
    (c ∈ (adc_int_body B st).eoc ↔ c ∈ st.eoc) := by
  obtain ⟨_, hid, hlen⟩ := wf_cursor st hw hcur
  have key : ∀ r : ADC,
      r = (if adc_check_eoc st
        (adc_get_ch_state st (st.d.ch_state.getD st.d.seq_ctr 0)).id = true
        then adc_capture B st else st) →
      adc_get_ch_state r c = adc_get_ch_state st c ∧
      stop_calls c r.trace = stop_calls c st.trace ∧
      r.d.ch_active.testBit c = st.d.ch_active.testBit c ∧
      (st.d.ch_active.testBit c = true → r.d.running = st.d.running) ∧
      (c ∈ r.eoc ↔ c ∈ st.eoc) := by
    intro r hr
    split_ifs at hr
    · obtain ⟨m, qm, hoth, _, heoc, heq⟩ := capture_eq B st _ rfl hid hlen
      have hm : adc_get_ch_state m c = adc_get_ch_state st c := hoth c (Ne.symm hne)
      have he : c ∈ m.eoc ↔ c ∈ st.eoc := by
        rw [heoc, List.mem_filter]
        exact ⟨fun h => h.1, fun h => ⟨h, decide_eq_true (Ne.symm hne)⟩⟩
      rw [heq] at hr
      split_ifs at hr
      · obtain ⟨s1, s2, s3, s4, s5⟩ := handler_stop_other _ c m hne hc
        subst hr
        refine ⟨s1.trans hm, s2.trans (qm.2.2.2.2.2.2.2.2 c), ?_, ?_, ?_⟩
        · rw [s3, qm.2.2.2.2.2.1]
        · intro hb
          rw [s4 (by rw [qm.2.2.2.2.2.1]; exact hb), qm.2.2.2.2.1]
        · rw [s5]; exact he
      · subst hr
        exact ⟨hm, qm.2.2.2.2.2.2.2.2 c, by rw [qm.2.2.2.2.2.1], fun _ => qm.2.2.2.2.1, he⟩
    · subst hr
      exact ⟨rfl, rfl, rfl, fun _ => rfl, Iff.rfl⟩
  obtain ⟨k1, k2, k3, k4, k5⟩ := key _ rfl
  exact ⟨k1, k2, k3, k4, k5⟩

/-- One iteration of the capture loop keeps an active free-running channel
active and calls no stop for it. -/
theorem body_freerunning (B : Bool) (st : ADC) (c : Nat) (hc : c < NUM_ADC)
    (hcur : st.d.seq_ctr < st.d.seq_len) (h : active_freerunning c st) :
    active_freerunning c (adc_int_body B st) ∧
    stop_calls c (adc_int_body B st).trace = stop_calls c st.trace := by
  obtain ⟨hw, hop, hfr, hbit, hrun⟩ := h
  have hw2 := wf_body B st hw hcur
  by_cases hne : st.d.ch_state.getD st.d.seq_ctr 0 = c
  · obtain ⟨_, hid, hlen⟩ := wf_cursor st hw hcur
    have key : ∀ r : ADC,
        r = (if adc_check_eoc st
          (adc_get_ch_state st (st.d.ch_state.getD st.d.seq_ctr 0)).id = true
          then adc_capture B st else st) →
        (adc_get_ch_state r c).op_pending = 1 ∧ (adc_get_ch_state r c).freerunning ≠ 0 ∧
        r.d.ch_active.testBit c = true ∧ r.d.running = 1 ∧
        stop_calls c r.trace = stop_calls c st.trace := by
      intro r hr
      split_ifs at hr
      · obtain ⟨m, qm, _, _, _, heq⟩ := capture_eq B st _ rfl hid hlen
        rw [heq, hne, if_neg (fun hx => hfr hx.2)] at hr
        subst hr
        refine ⟨(quiet_op_pending qm c).trans hop, ?_, ?_, ?_, qm.2.2.2.2.2.2.2.2 c⟩
        · rw [quiet_freerunning qm c]; exact hfr
        · rw [qm.2.2.2.2.2.1]; exact hbit
        · rw [qm.2.2.2.2.1]; exact hrun
      · subst hr
        exact ⟨hop, hfr, hbit, hrun, rfl⟩
    obtain ⟨k1, k2, k3, k4, k5⟩ := key _ rfl
    exact ⟨⟨hw2, k1, k2, k3, k4⟩, k5⟩
  · obtain ⟨b1, b2, b3, b4, _⟩ := body_other B st c hw hcur hc hne
    refine ⟨⟨hw2, ?_, ?_, ?_, ?_⟩, b2⟩
    · rw [b1]; exact hop
    · rw [b1]; exact hfr
    · rw [b3]; exact hbit
    · rw [b4 hbit]; exact hrun

/-! ## Free-running channels -/

theorem rearm_frame (c : ADC) :
    (adc_int_rearm c).adc_ch_state = c.adc_ch_state ∧
    (adc_int_rearm c).d.ch_active = c.d.ch_active ∧
    (adc_int_rearm c).d.running = c.d.running ∧
    (∀ k, stop_calls k (adc_int_rearm c).trace = stop_calls k c.trace) ∧
    (adc_wf c → adc_wf (adc_int_rearm c)) := by
  rw [rearm_eq]
  split_ifs
  · refine ⟨?_, ?_, ?_, ?_, ?_⟩
    · simp only [adc_start, emit]; rw [rebuild_eq]
    · simp only [adc_start, emit]; rw [rebuild_eq]
    · simp only [adc_start, emit]; rw [rebuild_eq]
    · intro k
      simp only [adc_start, stop_calls, count_emit]
      have := rebuild_stop_calls k (emit Event.adc_update_dev_sequence c)
      simp only [stop_calls, count_emit] at this
      rw [this]
      simp
    · intro hw
      exact wf_rebuild _ hw
  · refine ⟨?_, ?_, ?_, ?_, ?_⟩
    · rw [rebuild_eq]; rfl
    · rw [rebuild_eq]; rfl
    · rw [rebuild_eq]; rfl
    · intro k
      have := rebuild_stop_calls k (emit Event.adc_update_dev_sequence c)
      simp only [stop_calls, count_emit] at this
      simp only [stop_calls]
      rw [this]
      simp
    · intro hw
      exact wf_rebuild _ hw
  · exact ⟨rfl, rfl, rfl, fun _ => rfl, fun h => h⟩

theorem int_loop_freerunning (B : Bool) (c : Nat) (hc : c < NUM_ADC) (n : Nat) (st : ADC)
    (h : active_freerunning c st) :
    active_freerunning c (adc_int_loop B n st) ∧
    stop_calls c (adc_int_loop B n st).trace = stop_calls c st.trace := by
  induction n generalizing st with
  | zero => exact ⟨h, rfl⟩
  | succ n ih =>
    unfold adc_int_loop
    split_ifs with hcur
    · obtain ⟨b1, b2⟩ := body_freerunning B st c hc hcur h
      obtain ⟨i1, i2⟩ := ih _ b1
      exact ⟨i1, i2.trans b2⟩
    · exact ⟨h, rfl⟩

theorem handler_freerunning (B : Bool) (c : Nat) (hc : c < NUM_ADC) (st : ADC)
    (h : active_freerunning c st) :
    active_freerunning c (adc_int_handler B st) ∧
    stop_calls c (adc_int_handler B st).trace = stop_calls c st.trace := by
  have h0 : active_freerunning c (adc_int_entry st) := h
  obtain ⟨l1, l2⟩ := int_loop_freerunning B c hc (adc_int_entry st).d.seq_len _ h0
  have hcap : active_freerunning c (adc_int_captured B st) := l1
  have hcs : stop_calls c (adc_int_captured B st).trace = stop_calls c st.trace := l2
  obtain ⟨r1, r2, r3, r4, r5⟩ := rearm_frame (adc_int_captured B st)
  obtain ⟨hw, hop, hfr, hbit, hrun⟩ := hcap
  unfold adc_int_handler
  refine ⟨⟨r5 hw, ?_, ?_, ?_, ?_⟩, (r4 c).trans hcs⟩
  · simp only [adc_get_ch_state, r1]; exact hop
  · simp only [adc_get_ch_state, r1]; exact hfr
  · rw [r2]; exact hbit
  · rw [r3]; exact hrun

/-- C7: an active free-running channel of a running device is never stopped
by `adc_int_handler`: after any sequence of dispatches, whatever the batches
and whatever its sample count and `reqsamples`, no call of
`platform_adc_stop` for it has been added to the trace, its `op_pending` is
still 1 and `running` is still 1. -/
theorem freerunning_never_stopped (B : Bool) (c : Nat) (st : ADC) (bs : List Batch)
    (hc : c < NUM_ADC) (h : active_freerunning c st) :
    stop_calls c (adc_dispatch_all B st bs).trace = stop_calls c st.trace ∧
    (adc_get_ch_state (adc_dispatch_all B st bs) c).op_pending = 1 ∧
    (adc_dispatch_all B st bs).d.running = 1 ∧
    active_freerunning c (adc_dispatch_all B st bs) := by
  suffices hs : active_freerunning c (adc_dispatch_all B st bs) ∧
      stop_calls c (adc_dispatch_all B st bs).trace = stop_calls c st.trace from
    ⟨hs.2, hs.1.2.1, hs.1.2.2.2.2, hs.1⟩
  induction bs generalizing st with
  | nil => exact ⟨h, rfl⟩
  | cons b bs ih =>
    have h0 : active_freerunning c { st with eoc := b.eoc, cdr := b.cdr } := h
    obtain ⟨h1, h2⟩ := handler_freerunning B c hc _ h0
    obtain ⟨i1, i2⟩ := ih (adc_dispatch B st b) h1
    exact ⟨i1, i2.trans h2⟩

/-! ## PWM setup -/

theorem pwm_setup_valid (N p id f duty : Nat) (hid : id < N) (hd : duty ≤ 100)
    (hf : 1 ≤ f) (hfp : f ≤ p) :
    platform_pwm_setup N p id f duty =
      some (p / (p / f),
        [PwmCall.gpio_enable_module id,
         PwmCall.pwm_channel_set_period_and_duty_cycle id (p / f)
           ((p / f + 4294967296 - (p / f * duty % 4294967296) / 100) % 4294967296)]) := by
  have h1 : ¬ (id ≥ N ∨ duty > 100) := by omega
  have h2 : f ≠ 0 := by omega
  have h3 : p / f ≠ 0 := Nat.pos_iff_ne_zero.mp (Nat.div_pos hfp (by omega))
  simp [platform_pwm_setup, h1, h2, h3]

theorem pwm_setup_invalid (N p id f duty : Nat) (h : N ≤ id ∨ 100 < duty) :
    platform_pwm_setup N p id f duty = some (0, []) := by
  have h1 : id ≥ N ∨ duty > 100 := h
  simp [platform_pwm_setup, h1]

theorem pwm_period_pos (p f : Nat) (hf : 1 ≤ f) (hfp : f ≤ p) : 1 ≤ p / f :=
  Nat.div_pos hfp (by omega)

theorem pwm_return_ge (p f : Nat) (hf : 1 ≤ f) (hfp : f ≤ p) : f ≤ p / (p / f) := by
  have hq : 0 < p / f := Nat.div_pos hfp (by omega)
  rw [Nat.le_div_iff_mul_le hq]
  rw [Nat.mul_comm]
  exact Nat.div_mul_le_self p f

theorem pwm_return_eq (p f : Nat) (hf : 1 ≤ f) (hff : f * f ≤ p) : p / (p / f) = f := by
  have hf0 : 0 < f := by omega
  have hfp : f ≤ p := le_trans (Nat.le_mul_self f) hff
  have hq : 0 < p / f := Nat.div_pos hfp hf0
  have hfq : f ≤ p / f := (Nat.le_div_iff_mul_le hf0).mpr hff
  have hm := Nat.div_add_mod p f
  have hr := Nat.mod_lt p hf0
  apply Nat.le_antisymm
  · apply Nat.le_of_lt_succ
    rw [Nat.div_lt_iff_lt_mul hq]
    have hs : f.succ * (p / f) = f * (p / f) + p / f := Nat.succ_mul _ _
    rw [hs]
    generalize p / f = q at *
    generalize f * q = m at *
    omega
  · exact pwm_return_ge p f hf hfp

theorem pwm_duty_le (period duty : Nat) (hd : duty ≤ 100) :
    (period * duty % 4294967296) / 100 ≤ period := by
  have h1 : period * duty % 4294967296 ≤ period * duty := Nat.mod_le _ _
  have h2 : period * duty ≤ period * 100 := Nat.mul_le_mul_left _ hd
  have h3 : (period * duty % 4294967296) / 100 ≤ period * 100 / 100 :=
    Nat.div_le_div_right (le_trans h1 h2)
  simpa using h3

/-- C11: the frequency `platform_pwm_setup` returns is never below the
requested one, and it is above it at `pwm_get_clock_freq() = 1000000`,
`frequency = 1032`: the period programmed is 968 clock cycles, which is
shorter than the requested period (`968 * 1032 < 1000000`), and the value
returned is 1033. -/
theorem platform_pwm_setup_exceeds_request :
    (∀ N p id f duty, id < N → duty ≤ 100 → 1 ≤ f → f ≤ p →
      ∃ r calls, platform_pwm_setup N p id f duty = some (r, calls) ∧ f ≤ r) ∧
    platform_pwm_setup 7 1000000 0 1032 50 =
      some (1033, [PwmCall.gpio_enable_module 0,
                   PwmCall.pwm_channel_set_period_and_duty_cycle 0 968 484]) ∧
    968 * 1032 < 1000000 ∧ ¬ (1033 ≤ 1032) := by
  refine ⟨?_, by decide, by decide, by decide⟩
  intro N p id f duty hid hd hf hfp
  exact ⟨_, _, pwm_setup_valid N p id f duty hid hd hf hfp, pwm_return_ge p f hf hfp⟩

/-- C12: for a valid channel and duty, `platform_pwm_setup` returns exactly
the requested frequency `f` whenever `1 ≤ f` and `f * f ≤ pwmclk`, and with
`pwmclk = 1000000` it returns exactly `f` for every `f` from 1 to 1031. -/
theorem platform_pwm_setup_returns_request (N id duty : Nat) (hid : id < N) (hd : duty ≤ 100) :
    (∀ p f, 1 ≤ f → f * f ≤ p →
      (platform_pwm_setup N p id f duty).map Prod.fst = some f) ∧
    (∀ f, 1 ≤ f → f ≤ 1031 →
      (platform_pwm_setup N 1000000 id f duty).map Prod.fst = some f) := by
  constructor
  · intro p f hf hff
    have hfp : f ≤ p := le_trans (Nat.le_mul_self f) hff
    rw [pwm_setup_valid N p id f duty hid hd hf hfp]
    simp [pwm_return_eq p f hf hff]
  · intro f hf hf1
    rw [pwm_setup_valid N 1000000 id f duty hid hd hf (by omega)]
    simp only [Option.map_some', Option.some.injEq]
    by_cases hs : f ≤ 1000
    · exact pwm_return_eq 1000000 f hf (by nlinarith)
    · have h1 : 1001 ≤ f := by omega
      interval_cases f <;> rfl

/-- Witness of C12: channel 0 of seven, duty 50, PWM clock 1000000 Hz; the
requests 1000, 1031 and 1 are returned as they are. -/
theorem platform_pwm_setup_returns_request_witness :
    ((platform_pwm_setup 7 1000000 0 1000 50).map Prod.fst = some 1000) ∧
    ((platform_pwm_setup 7 1000000 0 1031 50).map Prod.fst = some 1031) ∧
    ((platform_pwm_setup 7 1000000 0 1 50).map Prod.fst = some 1) :=
  ⟨(platform_pwm_setup_returns_request 7 0 50 (by decide) (by decide)).1 1000000 1000
      (by decide) (by decide),
   (platform_pwm_setup_returns_request 7 0 50 (by decide) (by decide)).2 1031
      (by decide) (by decide),
   (platform_pwm_setup_returns_request 7 0 50 (by decide) (by decide)).2 1
      (by decide) (by decide)⟩

/-- C15: for a valid channel, `duty ≤ 100` and `1 ≤ frequency ≤ pwmclk`
(`pwmclk` a `u32`), `platform_pwm_setup` divides by no zero: it has a result,
the period `pwmclk / frequency` is at least 1, the 32-bit duty cycle
`(period * duty mod 2 ^ 32) / 100` is at most the period, so the subtraction
does not wrap and the duty value programmed is `period - duty_cycle`, within
`[0, period]`.  For `id ≥ NUM_PWM` or `duty > 100` the function returns 0 and
makes no driver call. -/
theorem platform_pwm_setup_safe (N p id f duty : Nat) :
    (id < N → duty ≤ 100 → 1 ≤ f → f ≤ p → p < 4294967296 →
      1 ≤ p / f ∧
      (p / f * duty % 4294967296) / 100 ≤ p / f ∧
      p / f - (p / f * duty % 4294967296) / 100 ≤ p / f ∧
      platform_pwm_setup N p id f duty =
        some (p / (p / f),
          [PwmCall.gpio_enable_module id,
           PwmCall.pwm_channel_set_period_and_duty_cycle id (p / f)
             (p / f - (p / f * duty % 4294967296) / 100)])) ∧
    (N ≤ id ∨ 100 < duty → platform_pwm_setup N p id f duty = some (0, [])) := by
  refine ⟨?_, pwm_setup_invalid N p id f duty⟩
  intro hid hd hf hfp hp
  have hle := pwm_duty_le (p / f) duty hd
  have hq : p / f ≤ p := Nat.div_le_self p f
  refine ⟨pwm_period_pos p f hf hfp, hle, Nat.sub_le _ _, ?_⟩
  rw [pwm_setup_valid N p id f duty hid hd hf hfp]
  have hsub : (p / f + 4294967296 - (p / f * duty % 4294967296) / 100) % 4294967296 =
      p / f - (p / f * duty % 4294967296) / 100 := by
    generalize (p / f * duty % 4294967296) / 100 = dc at *
    generalize p / f = q at *
    omega
  rw [hsub]

/-- Witness of C15: PWM clock 60000000 Hz, frequency 1, duty 100, where the
product `period * duty` exceeds `2 ^ 32`; and the two rejected calls, channel
7 of seven and duty 101. -/
theorem platform_pwm_setup_safe_witness :
    (1 ≤ 60000000 / 1 ∧
      (60000000 / 1 * 100 % 4294967296) / 100 ≤ 60000000 / 1 ∧
      60000000 / 1 - (60000000 / 1 * 100 % 4294967296) / 100 ≤ 60000000 / 1 ∧
      platform_pwm_setup 7 60000000 6 1 100 =
        some (60000000 / (60000000 / 1),
          [PwmCall.gpio_enable_module 6,
           PwmCall.pwm_channel_set_period_and_duty_cycle 6 (60000000 / 1)
             (60000000 / 1 - (60000000 / 1 * 100 % 4294967296) / 100)])) ∧
    platform_pwm_setup 7 60000000 7 1 100 = some (0, []) ∧
    platform_pwm_setup 7 60000000 6 0 101 = some (0, []) ∧
    4294967296 ≤ 60000000 / 1 * 100 :=
  ⟨(platform_pwm_setup_safe 7 60000000 6 1 100).1 (by decide) (by decide) (by decide)
      (by decide) (by decide),
   (platform_pwm_setup_safe 7 60000000 7 1 100).2 (Or.inl (by decide)),
   (platform_pwm_setup_safe 7 60000000 6 0 101).2 (Or.inr (by decide)),
   by decide⟩

/-! ## Frame and idempotence of `platform_adc_stop` -/

theorem INACTIVATE_idem (a id : Nat) :
    INACTIVATE_CHANNEL (INACTIVATE_CHANNEL a id) id = INACTIVATE_CHANNEL a id := by
  apply Nat.eq_of_testBit_eq
  intro j
  rw [testBit_INACTIVATE, testBit_INACTIVATE]
  by_cases h1 : j < 32 <;> by_cases h2 : j = id <;> simp [h1, h2]

theorem stop_op_pending (id : Nat) (st : ADC) :
    (adc_get_ch_state (platform_adc_stop id st) id).op_pending = 0 := by
  rw [stop_get]
  by_cases h : id < st.adc_ch_state.length
  · simp [h]
  · have hz : adc_get_ch_state st id = ch_zero := by
      simp [adc_get_ch_state, List.getD_eq_getElem?_getD,
        List.getElem?_eq_none (Nat.le_of_not_lt h)]
    simp [h, hz, ch_zero]

theorem stop_other (id q : Nat) (st : ADC) (h : q ≠ id) :
    adc_get_ch_state (platform_adc_stop id st) q = adc_get_ch_state st q := by
  rw [stop_get]
  have : ¬ (id = q ∧ id < st.adc_ch_state.length) := fun hh => h hh.1.symm
  simp [this]

theorem stop_device (id : Nat) (st : ADC) :
    (platform_adc_stop id st).d.ch_state = st.d.ch_state ∧
    (platform_adc_stop id st).d.seq_len = st.d.seq_len ∧
    (platform_adc_stop id st).d.seq_ctr = st.d.seq_ctr ∧
    (platform_adc_stop id st).d.sample_buf = st.d.sample_buf ∧
    (platform_adc_stop id st).d.clocked = st.d.clocked ∧
    (platform_adc_stop id st).cdr = st.cdr ∧
    (platform_adc_stop id st).buf = st.buf := by
  unfold platform_adc_stop
  simp only [set_ch]
  split_ifs <;> exact ⟨rfl, rfl, rfl, rfl, rfl, rfl, rfl⟩

theorem agree_stop (id : Nat) (st : ADC) (h : active_agree st) :
    active_agree (platform_adc_stop id st) := by
  intro c hc
  have h32 : c < 32 := lt_of_lt_of_le hc (by decide)
  rw [stop_ch_active, testBit_INACTIVATE]
  by_cases hci : c = id
  · subst hci
    rw [stop_op_pending]
    simp
  · rw [stop_other id c st hci]
    simp only [h32, hci, decide_True, decide_False, Bool.not_false, Bool.and_true]
    exact h c hc

theorem stop_idem (id : Nat) (st : ADC) :
    platform_adc_stop id (platform_adc_stop id st) = platform_adc_stop id st := by
  have hA := INACTIVATE_idem st.d.ch_active id
  have hT : (st.adc_ch_state.set id
        { st.adc_ch_state.getD id ch_zero with op_pending := 0 }).set id
        { (st.adc_ch_state.set id
            { st.adc_ch_state.getD id ch_zero with op_pending := 0 }).getD id ch_zero
          with op_pending := 0 } =
      st.adc_ch_state.set id { st.adc_ch_state.getD id ch_zero with op_pending := 0 } := by
    rw [getD_set_ch]
    by_cases hl : id < st.adc_ch_state.length <;> simp [hl]
  unfold platform_adc_stop
  simp only [set_ch, adc_get_ch_state]
  by_cases h0 : INACTIVATE_CHANNEL st.d.ch_active id = 0
  · simp only [h0, hT, if_true] at hA ⊢
    simp only [hA, if_true]
  · simp only [h0, hT, if_false, hA]

/-- C14: frame of `platform_adc_stop( id )` for a valid channel id.  The call
sets `op_pending` of channel `id` to 0 and leaves its other fields and every
other channel as they were; it clears bit `id` of `ch_active` and leaves the
other bits; `running` becomes 0 when `ch_active` is empty afterwards and is
unchanged otherwise; the sequence (`ch_state`, `seq_len`, `seq_ctr`), the
sample buffer and `clocked` are unchanged.  The agreement of `op_pending`
with the bit of `ch_active` is preserved, and a second call changes
nothing. -/
theorem platform_adc_stop_frame (id : Nat) (st : ADC) (hid : id < NUM_ADC)
    (hlen : st.adc_ch_state.length = NUM_ADC) (hact : st.d.ch_active < 2 ^ 32) :
    adc_get_ch_state (platform_adc_stop id st) id =
      { adc_get_ch_state st id with op_pending := 0 } ∧
    (∀ q, q ≠ id → adc_get_ch_state (platform_adc_stop id st) q = adc_get_ch_state st q) ∧
    (platform_adc_stop id st).adc_ch_state.length = st.adc_ch_state.length ∧
    (platform_adc_stop id st).d.ch_active.testBit id = false ∧
    (∀ j, j ≠ id →
      (platform_adc_stop id st).d.ch_active.testBit j = st.d.ch_active.testBit j) ∧
    (platform_adc_stop id st).d.running =
      (if (platform_adc_stop id st).d.ch_active = 0 then 0 else st.d.running) ∧
    (platform_adc_stop id st).d.ch_state = st.d.ch_state ∧
    (platform_adc_stop id st).d.seq_len = st.d.seq_len ∧
    (platform_adc_stop id st).d.seq_ctr = st.d.seq_ctr ∧
    (platform_adc_stop id st).d.sample_buf = st.d.sample_buf ∧
    (platform_adc_stop id st).d.clocked = st.d.clocked ∧
    (active_agree st → active_agree (platform_adc_stop id st)) ∧
    platform_adc_stop id (platform_adc_stop id st) = platform_adc_stop id st := by
  obtain ⟨d1, d2, d3, d4, d5, -, -⟩ := stop_device id st
  have hl : id < st.adc_ch_state.length := by rw [hlen]; exact hid
  refine ⟨?_, fun q hq => stop_other id q st hq, ?_, ?_, ?_, ?_, d1, d2, d3, d4, d5,
    agree_stop id st, stop_idem id st⟩
  · rw [stop_get]
    simp [hl]
  · rw [stop_table]
    simp
  · rw [stop_ch_active, testBit_INACTIVATE]
    simp
  · intro j hj
    rw [stop_ch_active, testBit_INACTIVATE]
    by_cases h32 : j < 32
    · simp [h32, hj]
    · have hlt : st.d.ch_active < 2 ^ j :=
        lt_of_lt_of_le hact (Nat.pow_le_pow_right (by norm_num) (Nat.le_of_not_lt h32))
      simp [Nat.testBit_lt_two_pow hlt]
  · rw [stop_running, stop_ch_active]

/-- Witness of C14: channels 1 and 2 active, channel 2 is stopped. -/
theorem platform_adc_stop_frame_witness :
    adc_get_ch_state (platform_adc_stop 2 adc_two_active) 2 =
      { adc_get_ch_state adc_two_active 2 with op_pending := 0 } ∧
    adc_get_ch_state (platform_adc_stop 2 adc_two_active) 1 =
      adc_get_ch_state adc_two_active 1 ∧
    (platform_adc_stop 2 adc_two_active).d.ch_active = 2 ∧
    (platform_adc_stop 2 adc_two_active).d.running = 1 ∧
    active_agree adc_two_active ∧
    active_agree (platform_adc_stop 2 adc_two_active) ∧
    platform_adc_stop 2 (platform_adc_stop 2 adc_two_active) =
      platform_adc_stop 2 adc_two_active :=
  have h := platform_adc_stop_frame 2 adc_two_active (by decide) (by decide) (by decide)
  ⟨h.1, h.2.1 1 (by decide), by decide, by decide, by decide,
    h.2.2.2.2.2.2.2.2.2.2.2.1 (by decide), h.2.2.2.2.2.2.2.2.2.2.2.2⟩

/-! ## One capture of `adc_int_handler` -/

theorem read_closed (st : ADC) (p : Nat) (hp : p = st.d.ch_state.getD st.d.seq_ctr 0)
    (hid : (adc_get_ch_state st p).id = p) (hlen : p < st.adc_ch_state.length) :
    (adc_capture_read st).d.sample_buf =
      st.d.sample_buf.set st.d.seq_ctr (st.cdr.getD p 0 % 65536) ∧
    adc_get_ch_state (adc_capture_read st) p = { adc_get_ch_state st p with value_fresh := 1 } ∧
    (adc_capture_read st).buf = st.buf ∧
    (adc_capture_read st).trace = st.trace ++ [Event.read_lcdr] ∧
    (adc_capture_read st).d.ch_state = st.d.ch_state ∧
    (adc_capture_read st).d.seq_ctr = st.d.seq_ctr ∧
    (adc_capture_read st).adc_ch_state.length = st.adc_ch_state.length := by
  subst hp
  refine ⟨?_, ?_, rfl, rfl, rfl, rfl, ?_⟩
  · simp only [adc_capture_read, adc_get_value, emit, set_ch]
    rw [hid]
  · simp only [adc_capture_read, adc_get_value, emit, set_ch, adc_get_ch_state, getD_set_ch]
    rw [if_pos]
    exact ⟨trivial, hlen⟩
  · simp [adc_capture_read, adc_get_value, emit, set_ch]

theorem finish_keeps (st : ADC) :
    (adc_capture_finish st).buf = st.buf ∧
    (adc_capture_finish st).d.sample_buf = st.d.sample_buf ∧
    (∀ q, (adc_get_ch_state (adc_capture_finish st) q).value_fresh =
      (adc_get_ch_state st q).value_fresh) ∧
    (∀ c, smooth_calls c (adc_capture_finish st).trace = smooth_calls c st.trace) := by
  unfold adc_capture_finish
  simp only
  split_ifs
  · obtain ⟨-, -, -, d4, -, -, d7⟩ := stop_device
      (adc_get_ch_state st (st.d.ch_state.getD st.d.seq_ctr 0)).id
      (emit (Event.platform_adc_stop
        (adc_get_ch_state st (st.d.ch_state.getD st.d.seq_ctr 0)).id) st)
    refine ⟨?_, ?_, ?_, ?_⟩
    · rw [d7]; rfl
    · rw [d4]; rfl
    · intro q
      rw [stop_get]
      split_ifs with h
      · rw [← h.1]; rfl
      · rfl
    · intro c
      rw [stop_trace]
      simp only [smooth_calls, count_emit]
      simp
  · exact ⟨rfl, rfl, fun _ => rfl, fun _ => rfl⟩

theorem route_closed (B : Bool) (st : ADC) (p : Nat)
    (hp : p = st.d.ch_state.getD st.d.seq_ctr 0)
    (hid : (adc_get_ch_state st p).id = p) (hlen : p < st.adc_ch_state.length) :
    (adc_capture_route B st).d.sample_buf = st.d.sample_buf ∧
    ((adc_get_ch_state st p).logsmoothlen > 0 ∧ (adc_get_ch_state st p).smooth_ready = 0 →
      (adc_capture_route B st).buf = st.buf ∧
      (adc_capture_route B st).trace = st.trace ++ [Event.adc_smooth_data p]) ∧
    (¬ ((adc_get_ch_state st p).logsmoothlen > 0 ∧ (adc_get_ch_state st p).smooth_ready = 0) →
      (B = true ∧ (adc_get_ch_state st p).reqsamples > 1 →
        (adc_capture_route B st).buf =
          st.buf ++ [(p, st.d.sample_buf.getD (adc_get_ch_state st p).value_ptr 0)] ∧
        (adc_capture_route B st).trace =
          st.trace ++ [Event.buf_write p
            (st.d.sample_buf.getD (adc_get_ch_state st p).value_ptr 0)] ∧
        (adc_get_ch_state (adc_capture_route B st) p).value_fresh = 0) ∧
      (¬ (B = true ∧ (adc_get_ch_state st p).reqsamples > 1) →
        adc_capture_route B st = st)) := by
  subst hp
  refine ⟨?_, ?_, ?_⟩
  · unfold adc_capture_route
    simp only
    split_ifs <;> rfl
  · intro hf
    unfold adc_capture_route
    simp only [if_pos hf, hid]
    exact ⟨rfl, rfl⟩
  · intro hf
    refine ⟨?_, ?_⟩
    · intro hs
      unfold adc_capture_route
      simp only [if_neg hf, if_pos hs, hid]
      refine ⟨rfl, rfl, ?_⟩
      rw [get_set_ch, if_pos]
      exact ⟨rfl, hlen⟩
    · intro hs
      unfold adc_capture_route
      simp only [if_neg hf, if_neg hs]

/-- C13: one pass of the loop of `adc_int_handler` over the sequence entry
at the cursor, for a channel `p` of the table that carries its own id.  When
its conversion-complete flag is set, the raw value (cast to 16 bits) is
stored in the slot of the cursor and `value_fresh` is set.  Then, if
`logsmoothlen > 0` and `smooth_ready = 0`, `adc_smooth_data` is called once
for the channel and the sink is left as it was; otherwise no call of
`adc_smooth_data` is made and, if the sink is built in and `reqsamples > 1`,
the value read through `value_ptr` (the stored raw value when `value_ptr`
is the slot of the cursor) is appended to the sink and `value_fresh` is
cleared; in the remaining case the sink is left as it was and `value_fresh`
stays set.  When the flag is not set, only the cursor moves. -/
theorem adc_int_handler_capture (B : Bool) (st : ADC) (p : Nat)
    (hp : p = st.d.ch_state.getD st.d.seq_ctr 0)
    (hid : (adc_get_ch_state st p).id = p) (hlen : p < st.adc_ch_state.length)
    (hslot : st.d.seq_ctr < st.d.sample_buf.length) :
    (adc_check_eoc st p = true →
      (adc_int_body B st).d.sample_buf =
        st.d.sample_buf.set st.d.seq_ctr (st.cdr.getD p 0 % 65536) ∧
      (adc_int_body B st).d.sample_buf.getD st.d.seq_ctr 0 = st.cdr.getD p 0 % 65536 ∧
      (adc_get_ch_state (adc_capture_read st) p).value_fresh = 1 ∧
      ((adc_get_ch_state st p).logsmoothlen > 0 ∧ (adc_get_ch_state st p).smooth_ready = 0 →
        smooth_calls p (adc_int_body B st).trace = smooth_calls p st.trace + 1 ∧
        (adc_int_body B st).buf = st.buf) ∧
      (¬ ((adc_get_ch_state st p).logsmoothlen > 0 ∧ (adc_get_ch_state st p).smooth_ready = 0) →
        (∀ c, smooth_calls c (adc_int_body B st).trace = smooth_calls c st.trace) ∧
        (B = true ∧ (adc_get_ch_state st p).reqsamples > 1 →
          (adc_int_body B st).buf =
            st.buf ++ [(p, (adc_int_body B st).d.sample_buf.getD
                            (adc_get_ch_state st p).value_ptr 0)] ∧
          ((adc_get_ch_state st p).value_ptr = st.d.seq_ctr →
            (adc_int_body B st).buf = st.buf ++ [(p, st.cdr.getD p 0 % 65536)]) ∧
          (adc_get_ch_state (adc_int_body B st) p).value_fresh = 0) ∧
        (¬ (B = true ∧ (adc_get_ch_state st p).reqsamples > 1) →
          (adc_int_body B st).buf = st.buf ∧
          (adc_get_ch_state (adc_int_body B st) p).value_fresh = 1))) ∧
    (adc_check_eoc st p = false →
      adc_int_body B st = { st with d := { st.d with seq_ctr := st.d.seq_ctr + 1 } }) := by
  constructor
  · intro hflag
    have hflag1 : adc_check_eoc st
        (adc_get_ch_state st (st.d.ch_state.getD st.d.seq_ctr 0)).id = true := by
      rw [← hp, hid]; exact hflag
    have hb : adc_int_body B st =
        { adc_capture B st with
          d := { (adc_capture B st).d with seq_ctr := (adc_capture B st).d.seq_ctr + 1 } } := by
      unfold adc_int_body
      simp only [hflag1, if_true]
    obtain ⟨r1, r2, r3, r4, r5, r6, r7⟩ := read_closed st p hp hid hlen
    have hp1 : p = (adc_capture_read st).d.ch_state.getD (adc_capture_read st).d.seq_ctr 0 := by
      rw [r5, r6]; exact hp
    have hid1 : (adc_get_ch_state (adc_capture_read st) p).id = p := by rw [r2]; exact hid
    have hlen1 : p < (adc_capture_read st).adc_ch_state.length := by rw [r7]; exact hlen
    obtain ⟨t1, t2, t3⟩ := route_closed B (adc_capture_read st) p hp1 hid1 hlen1
    obtain ⟨f1, f2, f3, f4⟩ := finish_keeps (adc_capture_route B (adc_capture_read st))
    have hbuf : (adc_int_body B st).buf = (adc_capture_route B (adc_capture_read st)).buf := by
      rw [hb]; exact f1
    have hsb : (adc_int_body B st).d.sample_buf =
        st.d.sample_buf.set st.d.seq_ctr (st.cdr.getD p 0 % 65536) := by
      rw [hb]
      show (adc_capture B st).d.sample_buf = _
      unfold adc_capture
      rw [f2, t1, r1]
    have hvf : ∀ q, (adc_get_ch_state (adc_int_body B st) q).value_fresh =
        (adc_get_ch_state (adc_capture_route B (adc_capture_read st)) q).value_fresh := by
      intro q
      rw [hb]
      exact f3 q
    have hsc : ∀ c, smooth_calls c (adc_int_body B st).trace =
        smooth_calls c (adc_capture_route B (adc_capture_read st)).trace := by
      intro c
      rw [hb]
      exact f4 c
    have hget : (st.d.sample_buf.set st.d.seq_ctr (st.cdr.getD p 0 % 65536)).getD
        st.d.seq_ctr 0 = st.cdr.getD p 0 % 65536 := by
      rw [getD_set_ch]
      simp [hslot]
    refine ⟨hsb, ?_, ?_, ?_, ?_⟩
    · rw [hsb]; exact hget
    · rw [r2]
    · intro hf
      have hf1 : (adc_get_ch_state (adc_capture_read st) p).logsmoothlen > 0 ∧
          (adc_get_ch_state (adc_capture_read st) p).smooth_ready = 0 := by rw [r2]; exact hf
      obtain ⟨u1, u2⟩ := t2 hf1
      refine ⟨?_, ?_⟩
      · rw [hsc, u2, r4]
        simp [smooth_calls]
      · rw [hbuf, u1, r3]
    · intro hf
      have hf1 : ¬ ((adc_get_ch_state (adc_capture_read st) p).logsmoothlen > 0 ∧
          (adc_get_ch_state (adc_capture_read st) p).smooth_ready = 0) := by rw [r2]; exact hf
      obtain ⟨v1, v2⟩ := t3 hf1
      refine ⟨?_, ?_, ?_⟩
      · intro c
        rw [hsc]
        by_cases hs : B = true ∧ (adc_get_ch_state (adc_capture_read st) p).reqsamples > 1
        · rw [(v1 hs).2.1, r4]
          simp [smooth_calls]
        · rw [v2 hs, r4]
          simp [smooth_calls]
      · intro hs
        have hs1 : B = true ∧ (adc_get_ch_state (adc_capture_read st) p).reqsamples > 1 := by
          rw [r2]; exact hs
        obtain ⟨w1, -, w3⟩ := v1 hs1
        have hpush : (adc_int_body B st).buf =
            st.buf ++ [(p, (adc_int_body B st).d.sample_buf.getD
                            (adc_get_ch_state st p).value_ptr 0)] := by
          rw [hbuf, w1, r3, hsb, r1, r2]
        refine ⟨hpush, ?_, ?_⟩
        · intro hv
          rw [hpush, hsb, hv, hget]
        · rw [hvf, w3]
      · intro hs
        have hs1 : ¬ (B = true ∧ (adc_get_ch_state (adc_capture_read st) p).reqsamples > 1) := by
          rw [r2]; exact hs
        refine ⟨?_, ?_⟩
        · rw [hbuf, v2 hs1, r3]
        · rw [hvf, v2 hs1, r2]
  · intro hflag
    have hflag1 : ¬ (adc_check_eoc st
        (adc_get_ch_state st (st.d.ch_state.getD st.d.seq_ctr 0)).id = true) := by
      rw [← hp, hid, hflag]; exact Bool.false_ne_true
    unfold adc_int_body
    simp only [if_neg hflag1]

/-- Witness of C13: the first capture of channel 3 (five samples requested,
sink built in) stores 10 in slot 0, appends it to the sink and clears
`value_fresh`; the capture of channel 2 (smoothing window not filled) stores
the 16-bit value, calls `adc_smooth_data( 2 )` once and leaves the sink
empty; with no flag set only the cursor moves. -/
theorem adc_int_handler_capture_witness :
    ((adc_int_body true adc_sink_capture).d.sample_buf.getD 0 0 = 10 ∧
      (adc_int_body true adc_sink_capture).buf = [(3, 10)] ∧
      (adc_get_ch_state (adc_int_body true adc_sink_capture) 3).value_fresh = 0 ∧
      smooth_calls 3 (adc_int_body true adc_sink_capture).trace = 0) ∧
    ((adc_int_body true adc_filter_capture).d.sample_buf.getD 0 0 = 4464 ∧
      smooth_calls 2 (adc_int_body true adc_filter_capture).trace = 1 ∧
      (adc_int_body true adc_filter_capture).buf = []) ∧
    adc_int_body true adc_one_bounded =
      { adc_one_bounded with d := { adc_one_bounded.d with seq_ctr := 1 } } :=
  have h1 := (adc_int_handler_capture true adc_sink_capture 3 (by decide) (by decide)
    (by decide) (by decide)).1 (by decide)
  have h2 := (adc_int_handler_capture true adc_filter_capture 2 (by decide) (by decide)
    (by decide) (by decide)).1 (by decide)
  have h3 := (adc_int_handler_capture true adc_one_bounded 3 (by decide) (by decide)
    (by decide) (by decide)).2 (by decide)
  ⟨⟨h1.2.1, ((h1.2.2.2.2 (by decide)).2.1 (by decide)).2.1 (by decide),
      ((h1.2.2.2.2 (by decide)).2.1 (by decide)).2.2, (h1.2.2.2.2 (by decide)).1 3⟩,
    ⟨h2.2.1, (h2.2.2.2.1 (by decide)).1, (h2.2.2.2.1 (by decide)).2⟩, h3⟩

/-! ## The active set and the conversion sequence -/

theorem agree_congr {a b : ADC} (h1 : b.adc_ch_state = a.adc_ch_state)
    (h2 : b.d.ch_active = a.d.ch_active) (h : active_agree a) : active_agree b := by
  intro c hc
  simp only [adc_get_ch_state, h1, h2]
  exact h c hc

theorem agree_of_quiet {a b : ADC} (hq : quiet a b) (h : active_agree a) : active_agree b := by
  intro c hc
  rw [quiet_op_pending hq c, hq.2.2.2.2.2.1]
  exact h c hc

theorem agree_finish (st : ADC) (h : active_agree st) :
    active_agree (adc_capture_finish st) := by
  unfold adc_capture_finish
  simp only []
  split_ifs
  · exact agree_stop _ _ (agree_congr rfl rfl h)
  · exact h

theorem agree_capture (B : Bool) (st : ADC) (h : active_agree st) :
    active_agree (adc_capture B st) := by
  unfold adc_capture
  exact agree_finish _ (agree_of_quiet (quiet_trans (quiet_read st) (quiet_route B _)) h)

theorem agree_body (B : Bool) (st : ADC) (h : active_agree st) :
    active_agree (adc_int_body B st) := by
  unfold adc_int_body
  simp only []
  split_ifs
  · exact agree_congr rfl rfl (agree_capture B st h)
  · exact agree_congr rfl rfl h

theorem agree_int_loop (B : Bool) (n : Nat) (st : ADC) (h : active_agree st) :
    active_agree (adc_int_loop B n st) := by
  induction n generalizing st with
  | zero => exact h
  | succ n ih =>
    unfold adc_int_loop
    split_ifs
    · exact ih _ (agree_body B st h)
    · exact h

theorem agree_handler (B : Bool) (st : ADC) (h : active_agree st) :
    active_agree (adc_int_handler B st) := by
  obtain ⟨r1, r2, -, -, -⟩ := rearm_frame (adc_int_captured B st)
  have h0 : active_agree (adc_int_entry st) := agree_congr rfl rfl h
  have h1 := agree_int_loop B (adc_int_entry st).d.seq_len _ h0
  have h2 : active_agree (adc_int_captured B st) := agree_congr rfl rfl h1
  unfold adc_int_handler
  exact agree_congr r1 r2 h2

theorem handler_sequence_agree (B : Bool) (st : ADC)
    (hr : (adc_int_handler B st).d.running = 1) : sequence_agree (adc_int_handler B st) := by
  obtain ⟨r1, -, r3, -, -⟩ := rearm_frame (adc_int_captured B st)
  have hrun : (adc_int_captured B st).d.running = 1 := by
    rw [← r3]; exact hr
  have hseq : adc_sequence (adc_int_handler B st) =
      active_list (emit Event.adc_update_dev_sequence (adc_int_captured B st)) := by
    unfold adc_int_handler
    rw [rearm_eq, if_pos hrun]
    split_ifs
    · exact rebuild_sequence _
    · exact rebuild_sequence _
  intro k hk
  have ht : adc_get_ch_state (adc_int_handler B st) k =
      adc_get_ch_state (emit Event.adc_update_dev_sequence (adc_int_captured B st)) k := by
    unfold adc_int_handler
    simp only [adc_get_ch_state, r1]
    rfl
  rw [hseq, mem_active_list, ht]
  exact ⟨fun h => ⟨hk, h⟩, fun h => h.2⟩

/-- Counterexample to C3: the invariant stated on the conversion sequence
holds before and fails after `platform_adc_stop( 3 )`, and it holds before
and fails after the pass of `adc_int_handler` that captures the last
requested sample of the only active channel: the channel has
`op_pending = 0` and is still in `ch_state[0..seq_len)`. -/
theorem sequence_agree_not_preserved :
    (sequence_agree adc_one_bounded ∧
      ¬ sequence_agree (platform_adc_stop 3 adc_one_bounded)) ∧
    (sequence_agree adc_last_capture ∧
      ¬ sequence_agree (adc_int_handler true adc_last_capture)) := by
  decide

/-- C3 (as the code has it): the active set is the bit set `ch_active`.  A
channel has `op_pending = 1` exactly when its bit of `ch_active` is set, and
this is preserved by `platform_adc_stop` and by `adc_int_handler`.  The
conversion sequence follows at the rebuild: when `adc_int_handler` returns
with `running = 1`, a channel has `op_pending = 1` exactly when it is in
`ch_state[0..seq_len)`. -/
theorem active_agree_preserved (B : Bool) (id : Nat) (st : ADC) :
    (active_agree st → active_agree (platform_adc_stop id st)) ∧
    (active_agree st → active_agree (adc_int_handler B st)) ∧
    ((adc_int_handler B st).d.running = 1 → sequence_agree (adc_int_handler B st)) :=
  ⟨agree_stop id st, agree_handler B st, handler_sequence_agree B st⟩

/-- Witness of C3 (as the code has it): channel 3 is the only active channel
and has the first of its five samples ready. -/
theorem active_agree_preserved_witness :
    active_agree adc_sink_capture ∧
    active_agree (platform_adc_stop 3 adc_sink_capture) ∧
    active_agree (adc_int_handler true adc_sink_capture) ∧
    (adc_int_handler true adc_sink_capture).d.running = 1 ∧
    sequence_agree (adc_int_handler true adc_sink_capture) :=
  ⟨by decide,
   (active_agree_preserved true 3 adc_sink_capture).1 (by decide),
   (active_agree_preserved true 3 adc_sink_capture).2.1 (by decide),
   by decide,
   (active_agree_preserved true 3 adc_sink_capture).2.2 (by decide)⟩

/-! ## Concrete runs of the start and of free-running channels -/

/-- Witness of C5: on the running device with channels 1 and 2 active the
call changes nothing; on the device that is not running, with channels 1 and
2 started, it builds the sequence `[1, 2]`, sets `running`, calls the rebuild
once and issues one start trigger. -/
theorem platform_adc_start_sequence_spec_witness :
    (platform_adc_start_sequence adc_two_active).2 = adc_two_active ∧
    adc_sequence (platform_adc_start_sequence adc_started_idle).2 = [1, 2] ∧
    (platform_adc_start_sequence adc_started_idle).2.d.seq_ctr = 0 ∧
    (platform_adc_start_sequence adc_started_idle).2.d.running = 1 ∧
    rebuild_calls (platform_adc_start_sequence adc_started_idle).2.trace = 1 ∧
    start_triggers (platform_adc_start_sequence adc_started_idle).2.trace = 1 :=
  have h := (platform_adc_start_sequence_spec adc_started_idle).2.2 (by decide)
  ⟨(platform_adc_start_sequence_spec adc_two_active).2.1 (by decide),
   h.1, h.2.2.1, h.2.2.2.1, h.2.2.2.2.2.1, h.2.2.2.2.2.2.1⟩

/-- Witness of C7: channel 1 is free-running with `reqsamples = 0`; after
four batches in which it completes every time (and in which channel 2 reaches
its three samples and is stopped) channel 1 was never stopped, is still
pending, and the device is still running, with one sample of channel 1
available, more than its `reqsamples`. -/
theorem freerunning_never_stopped_witness :
    stop_calls 1 (adc_dispatch_all true adc_two_active adc_four_batches).trace = 0 ∧
    (adc_get_ch_state (adc_dispatch_all true adc_two_active adc_four_batches) 1).op_pending = 1 ∧
    (adc_dispatch_all true adc_two_active adc_four_batches).d.running = 1 ∧
    adc_samples_available (adc_dispatch_all true adc_two_active adc_four_batches) 1 = 1 ∧
    stop_calls 2 (adc_dispatch_all true adc_two_active adc_four_batches).trace = 1 :=
  have h := freerunning_never_stopped true 1 adc_two_active adc_four_batches (by decide)
    (by decide)
  ⟨h.1, h.2.1, h.2.2.1, by decide, by decide⟩

/-! ## Bounded channels -/

theorem body_idle (B : Bool) (st : ADC)
    (h : adc_check_eoc st (adc_get_ch_state st (st.d.ch_state.getD st.d.seq_ctr 0)).id = false) :
    adc_int_body B st = { st with d := { st.d with seq_ctr := st.d.seq_ctr + 1 } } := by
  have h1 : ¬ (adc_check_eoc st
      (adc_get_ch_state st (st.d.ch_state.getD st.d.seq_ctr 0)).id = true) := by
    rw [h]; exact Bool.false_ne_true
  unfold adc_int_body
  simp only [if_neg h1]

theorem body_flagged (B : Bool) (st : ADC)
    (h : adc_check_eoc st (adc_get_ch_state st (st.d.ch_state.getD st.d.seq_ctr 0)).id = true) :
    adc_int_body B st =
      { adc_capture B st with
        d := { (adc_capture B st).d with seq_ctr := (adc_capture B st).d.seq_ctr + 1 } } := by
  unfold adc_int_body
  simp only [if_pos h]

theorem stop_available (id q : Nat) (st : ADC) :
    adc_samples_available (platform_adc_stop id st) q = adc_samples_available st q := by
  obtain ⟨-, -, -, -, -, -, d7⟩ := stop_device id st
  have hv : (adc_get_ch_state (platform_adc_stop id st) q).value_fresh =
      (adc_get_ch_state st q).value_fresh := by
    rw [stop_get]
    split_ifs with h
    · rw [← h.1]
    · rfl
  simp only [adc_samples_available, sink_count, d7, hv]

theorem sink_count_push (c p v : Nat) (l : List (Nat × Nat)) :
    (l ++ [(p, v)]).countP (fun e => decide (e.1 = c)) =
      l.countP (fun e => decide (e.1 = c)) + (if p = c then 1 else 0) := by
  rw [List.countP_append]
  by_cases h : p = c <;> simp [List.countP_cons, h]

/-- The sink after the capture of the channel at the cursor: as before, or
with one sample of that channel appended. -/
theorem capture_buf (B : Bool) (st : ADC) (p : Nat)
    (hp : p = st.d.ch_state.getD st.d.seq_ctr 0)
    (hid : (adc_get_ch_state st p).id = p) (hlen : p < st.adc_ch_state.length) :
    (adc_capture B st).buf = st.buf ∨ ∃ v, (adc_capture B st).buf = st.buf ++ [(p, v)] := by
  obtain ⟨-, r2, r3, -, r5, r6, r7⟩ := read_closed st p hp hid hlen
  have hp1 : p = (adc_capture_read st).d.ch_state.getD (adc_capture_read st).d.seq_ctr 0 := by
    rw [r5, r6]; exact hp
  have hid1 : (adc_get_ch_state (adc_capture_read st) p).id = p := by rw [r2]; exact hid
  have hlen1 : p < (adc_capture_read st).adc_ch_state.length := by rw [r7]; exact hlen
  obtain ⟨-, t2, t3⟩ := route_closed B (adc_capture_read st) p hp1 hid1 hlen1
  have hf := (finish_keeps (adc_capture_route B (adc_capture_read st))).1
  unfold adc_capture
  rw [hf]
  by_cases h1 : (adc_get_ch_state (adc_capture_read st) p).logsmoothlen > 0 ∧
      (adc_get_ch_state (adc_capture_read st) p).smooth_ready = 0
  · left
    rw [(t2 h1).1, r3]
  · by_cases h2 : B = true ∧ (adc_get_ch_state (adc_capture_read st) p).reqsamples > 1
    · right
      exact ⟨_, by rw [((t3 h1).1 h2).1, r3]⟩
    · left
      rw [(t3 h1).2 h2, r3]

theorem body_sink_other (B : Bool) (st : ADC) (c : Nat) (hw : adc_wf st)
    (hcur : st.d.seq_ctr < st.d.seq_len) (hne : st.d.ch_state.getD st.d.seq_ctr 0 ≠ c) :
    sink_count c (adc_int_body B st) = sink_count c st := by
  obtain ⟨-, w2, w3⟩ := wf_cursor st hw hcur
  by_cases hflag : adc_check_eoc st
      (adc_get_ch_state st (st.d.ch_state.getD st.d.seq_ctr 0)).id = true
  · rw [body_flagged B st hflag]
    show (adc_capture B st).buf.countP _ = st.buf.countP _
    rcases capture_buf B st _ rfl w2 w3 with hb | ⟨v, hb⟩
    · rw [hb]
    · rw [hb, sink_count_push, if_neg hne, Nat.add_zero]
  · rw [body_idle B st (by simpa using hflag)]
    rfl

theorem core_body_other (B : Bool) (c N k s0 : Nat) (st : ADC) (hc : c < NUM_ADC)
    (h : bounded_core c N k s0 st) (hcur : st.d.seq_ctr < st.d.seq_len)
    (hne : st.d.ch_state.getD st.d.seq_ctr 0 ≠ c) :
    bounded_core c N k s0 (adc_int_body B st) ∧
    (c ∈ (adc_int_body B st).eoc ↔ c ∈ st.eoc) := by
  obtain ⟨hw, h1, h2, hl, h3, h4, h5, h6, h7⟩ := h
  obtain ⟨b1, b2, b3, b4, b5⟩ := body_other B st c hw hcur hc hne
  refine ⟨⟨wf_body B st hw hcur, ?_, ?_, ?_, ?_, ?_, ?_, ?_, ?_⟩, b5⟩
  · rw [b1]; exact h1
  · rw [b1]; exact h2
  · rw [b1]; exact hl
  · rw [b1]; exact h3
  · rw [body_sink_other B st c hw hcur hne]; exact h4
  · rw [b3]; exact h5
  · rw [b4 h5]; exact h6
  · rw [b2]; exact h7

theorem core_body_skip (B : Bool) (c N k s0 : Nat) (st : ADC) (hc : c < NUM_ADC)
    (h : bounded_core c N k s0 st) (hcur : st.d.seq_ctr < st.d.seq_len) (he : c ∉ st.eoc) :
    bounded_core c N k s0 (adc_int_body B st) ∧ c ∉ (adc_int_body B st).eoc := by
  by_cases hne : st.d.ch_state.getD st.d.seq_ctr 0 = c
  · obtain ⟨hw, h1, h2, hl, h3, h4, h5, h6, h7⟩ := h
    obtain ⟨-, w2, -⟩ := wf_cursor st hw hcur
    have hflag : adc_check_eoc st
        (adc_get_ch_state st (st.d.ch_state.getD st.d.seq_ctr 0)).id = false := by
      rw [w2, hne]
      simp [adc_check_eoc, he]
    have hwb := wf_body B st hw hcur
    rw [body_idle B st hflag] at hwb ⊢
    exact ⟨⟨hwb, h1, h2, hl, h3, h4, h5, h6, h7⟩, he⟩
  · obtain ⟨a1, a2⟩ := core_body_other B c N k s0 st hc h hcur hne
    exact ⟨a1, fun hm => he (a2.mp hm)⟩

theorem done_body (B : Bool) (c N s0 : Nat) (st : ADC) (hc : c < NUM_ADC)
    (h : bounded_done c N s0 st) (hcur : st.d.seq_ctr < st.d.seq_len) (he : c ∉ st.eoc) :
    bounded_done c N s0 (adc_int_body B st) ∧ c ∉ (adc_int_body B st).eoc := by
  obtain ⟨hw, h1, h2, h3⟩ := h
  by_cases hne : st.d.ch_state.getD st.d.seq_ctr 0 = c
  · obtain ⟨-, w2, -⟩ := wf_cursor st hw hcur
    have hflag : adc_check_eoc st
        (adc_get_ch_state st (st.d.ch_state.getD st.d.seq_ctr 0)).id = false := by
      rw [w2, hne]
      simp [adc_check_eoc, he]
    have hwb := wf_body B st hw hcur
    rw [body_idle B st hflag] at hwb ⊢
    exact ⟨⟨hwb, h1, h2, h3⟩, he⟩
  · obtain ⟨b1, b2, -, -, b5⟩ := body_other B st c hw hcur hc hne
    refine ⟨⟨wf_body B st hw hcur, ?_, ?_, ?_⟩, fun hm => he (b5.mp hm)⟩
    · rw [b1]; exact h1
    · have hs := body_sink_other B st c hw hcur hne
      simp only [adc_samples_available, hs, b1]
      exact h2
    · rw [b2]; exact h3

/-- The capture of bounded channel `c` with `k` samples in the sink: when the
sink is built in or one sample is requested, `k + 1` samples are available
after the store and the routing. -/
theorem capture_available (B : Bool) (c N k : Nat) (st : ADC) (hB : B = true ∨ N = 1)
    (hp : c = st.d.ch_state.getD st.d.seq_ctr 0)
    (hid : (adc_get_ch_state st c).id = c) (hlen : c < st.adc_ch_state.length)
    (hl : (adc_get_ch_state st c).logsmoothlen = 0)
    (h3 : (adc_get_ch_state st c).reqsamples = N) (h4 : sink_count c st = k) (hk : k < N) :
    adc_samples_available (adc_capture_route B (adc_capture_read st)) c = k + 1 ∧
    (1 < N → sink_count c (adc_capture_route B (adc_capture_read st)) = k + 1) := by
  obtain ⟨-, r2, r3, -, r5, r6, r7⟩ := read_closed st c hp hid hlen
  have hp1 : c = (adc_capture_read st).d.ch_state.getD (adc_capture_read st).d.seq_ctr 0 := by
    rw [r5, r6]; exact hp
  have hid1 : (adc_get_ch_state (adc_capture_read st) c).id = c := by rw [r2]; exact hid
  have hlen1 : c < (adc_capture_read st).adc_ch_state.length := by rw [r7]; exact hlen
  have hreq : (adc_get_ch_state (adc_capture_read st) c).reqsamples = N := by rw [r2]; exact h3
  have hnf : ¬ ((adc_get_ch_state (adc_capture_read st) c).logsmoothlen > 0 ∧
      (adc_get_ch_state (adc_capture_read st) c).smooth_ready = 0) := by
    rw [r2]
    intro hh
    have h0 : (adc_get_ch_state st c).logsmoothlen > 0 := hh.1
    omega
  obtain ⟨-, -, t3⟩ := route_closed B (adc_capture_read st) c hp1 hid1 hlen1
  obtain ⟨v1, v2⟩ := t3 hnf
  have hk4 : st.buf.countP (fun e => decide (e.1 = c)) = k := h4
  by_cases hs : B = true ∧ (adc_get_ch_state (adc_capture_read st) c).reqsamples > 1
  · obtain ⟨w1, -, w3⟩ := v1 hs
    have hsc : sink_count c (adc_capture_route B (adc_capture_read st)) = k + 1 := by
      simp only [sink_count, w1, r3]
      rw [sink_count_push, if_pos rfl, hk4]
    refine ⟨?_, fun _ => hsc⟩
    simp only [adc_samples_available, hsc, w3]
    simp
  · have hN1 : N = 1 := by
      rw [hreq] at hs
      rcases hB with hB | hB
      · have hn : ¬ N > 1 := fun hh => hs ⟨hB, hh⟩
        omega
      · exact hB
    have hk0 : k = 0 := by omega
    rw [v2 hs]
    refine ⟨?_, fun hh => by omega⟩
    simp only [adc_samples_available, sink_count, r3, r2, hk4, hk0]
    simp

theorem core_body_capture (B : Bool) (c N k s0 : Nat) (st : ADC) (hB : B = true ∨ N = 1)
    (h : bounded_core c N k s0 st) (hcur : st.d.seq_ctr < st.d.seq_len)
    (hp : st.d.ch_state.getD st.d.seq_ctr 0 = c) (he : c ∈ st.eoc) (hk : k < N) :
    (k + 1 < N ∧ bounded_core c N (k + 1) s0 (adc_int_body B st) ∧
      c ∉ (adc_int_body B st).eoc) ∨
    (k + 1 = N ∧ bounded_done c N s0 (adc_int_body B st) ∧
      c ∉ (adc_int_body B st).eoc) := by
  obtain ⟨hw, h1, h2, hl, h3, h4, h5, h6, h7⟩ := h
  obtain ⟨-, w2, w3⟩ := wf_cursor st hw hcur
  have hflag : adc_check_eoc st
      (adc_get_ch_state st (st.d.ch_state.getD st.d.seq_ctr 0)).id = true := by
    rw [w2, hp]
    simp [adc_check_eoc, he]
  rw [hp] at w2 w3
  have hwb := wf_body B st hw hcur
  obtain ⟨ha, hs⟩ := capture_available B c N k st hB hp.symm w2 w3 hl h3 h4 hk
  obtain ⟨m, qm, -, mdef, me, hcap⟩ := capture_eq B st c hp.symm w2 w3
  rw [← mdef] at ha hs
  have hce : c ∉ m.eoc := by
    rw [me]
    simp
  rw [ha, h3, h2] at hcap
  rw [body_flagged B st hflag] at hwb ⊢
  by_cases hlast : k + 1 ≥ N
  · right
    have hcond : k + 1 ≥ N ∧ (0 : Nat) = 0 := ⟨hlast, rfl⟩
    rw [if_pos hcond] at hcap
    rw [hcap] at hwb ⊢
    refine ⟨by omega, ⟨hwb, ?_, ?_, ?_⟩, ?_⟩
    · show (adc_get_ch_state (platform_adc_stop c (emit (Event.platform_adc_stop c) m)) c).op_pending = 0
      exact stop_op_pending _ _
    · show adc_samples_available (platform_adc_stop c (emit (Event.platform_adc_stop c) m)) c = N
      rw [stop_available]
      show adc_samples_available m c = N
      omega
    · show stop_calls c (platform_adc_stop c (emit (Event.platform_adc_stop c) m)).trace = s0 + 1
      rw [stop_trace, stop_calls_emit, if_pos rfl, qm.2.2.2.2.2.2.2.2 c, h7]
    · show c ∉ (platform_adc_stop c (emit (Event.platform_adc_stop c) m)).eoc
      rw [stop_eoc]
      exact hce
  · left
    have hcond : ¬ (k + 1 ≥ N ∧ (0 : Nat) = 0) := fun hh => hlast hh.1
    rw [if_neg hcond] at hcap
    rw [hcap] at hwb ⊢
    have hlog : (adc_get_ch_state m c).logsmoothlen = 0 := by
      have := qm.2.2.2.2.2.2.2.1 c
      simp only [ch_static, Prod.mk.injEq] at this
      rw [this.2.2.2.2]; exact hl
    refine ⟨by omega, ⟨hwb, ?_, ?_, hlog, ?_, hs (by omega), ?_, ?_, ?_⟩, hce⟩
    · show (adc_get_ch_state m c).op_pending = 1
      rw [quiet_op_pending qm]; exact h1
    · show (adc_get_ch_state m c).freerunning = 0
      rw [quiet_freerunning qm]; exact h2
    · show (adc_get_ch_state m c).reqsamples = N
      rw [quiet_reqsamples qm]; exact h3
    · show m.d.ch_active.testBit c = true
      rw [qm.2.2.2.2.2.1]; exact h5
    · show m.d.running = 1
      rw [qm.2.2.2.2.1]; exact h6
    · show stop_calls c m.trace = s0
      rw [qm.2.2.2.2.2.2.2.2 c]; exact h7

theorem core_loop_skip (B : Bool) (c N k s0 : Nat) (hc : c < NUM_ADC) (n : Nat) (st : ADC)
    (h : bounded_core c N k s0 st) (he : c ∉ st.eoc) :
    bounded_core c N k s0 (adc_int_loop B n st) ∧ c ∉ (adc_int_loop B n st).eoc := by
  induction n generalizing st with
  | zero => exact ⟨h, he⟩
  | succ n ih =>
    unfold adc_int_loop
    split_ifs with hcur
    · obtain ⟨b1, b2⟩ := core_body_skip B c N k s0 st hc h hcur he
      exact ih _ b1 b2
    · exact ⟨h, he⟩

theorem done_loop (B : Bool) (c N s0 : Nat) (hc : c < NUM_ADC) (n : Nat) (st : ADC)
    (h : bounded_done c N s0 st) (he : c ∉ st.eoc) :
    bounded_done c N s0 (adc_int_loop B n st) ∧ c ∉ (adc_int_loop B n st).eoc := by
  induction n generalizing st with
  | zero => exact ⟨h, he⟩
  | succ n ih =>
    unfold adc_int_loop
    split_ifs with hcur
    · obtain ⟨b1, b2⟩ := done_body B c N s0 st hc h hcur he
      exact ih _ b1 b2
    · exact ⟨h, he⟩

theorem core_loop_capture (B : Bool) (c N k s0 : Nat) (hB : B = true ∨ N = 1)
    (hc : c < NUM_ADC) (hk : k < N)
    (n : Nat) (st : ADC) (h : bounded_core c N k s0 st) (he : c ∈ st.eoc)
    (hi : ∃ i, st.d.seq_ctr ≤ i ∧ i < st.d.seq_len ∧ st.d.ch_state.getD i 0 = c)
    (hn : st.d.seq_len - st.d.seq_ctr ≤ n) :
    (k + 1 < N ∧ bounded_core c N (k + 1) s0 (adc_int_loop B n st)) ∨
    (k + 1 = N ∧ bounded_done c N s0 (adc_int_loop B n st)) := by
  induction n generalizing st with
  | zero =>
    obtain ⟨i, i1, i2, -⟩ := hi
    omega
  | succ n ih =>
    obtain ⟨i, i1, i2, i3⟩ := hi
    have hcur : st.d.seq_ctr < st.d.seq_len := by omega
    unfold adc_int_loop
    rw [if_pos hcur]
    by_cases hp : st.d.ch_state.getD st.d.seq_ctr 0 = c
    · rcases core_body_capture B c N k s0 st hB h hcur hp he hk with
        ⟨a1, a2, a3⟩ | ⟨a1, a2, a3⟩
      · exact Or.inl ⟨a1, (core_loop_skip B c N (k + 1) s0 hc n _ a2 a3).1⟩
      · exact Or.inr ⟨a1, (done_loop B c N s0 hc n _ a2 a3).1⟩
    · obtain ⟨a1, a2⟩ := core_body_other B c N k s0 st hc h hcur hp
      obtain ⟨f1, f2, f3, -, -⟩ := body_frame B st
      apply ih _ a1 (a2.mpr he)
      · refine ⟨i, ?_, ?_, ?_⟩
        · rw [f3]
          have : i ≠ st.d.seq_ctr := by
            intro hh
            rw [hh] at i3
            exact hp i3
          omega
        · rw [f2]; exact i2
        · rw [f1]; exact i3
      · rw [f2, f3]
        omega

theorem rearm_buf (x : ADC) : (adc_int_rearm x).buf = x.buf := by
  rw [rearm_eq]
  split_ifs
  · simp only [adc_start, emit]; rw [rebuild_eq]
  · rw [rebuild_eq]; rfl
  · rfl

theorem core_rearm (c N k s0 : Nat) (x : ADC) (h : bounded_core c N k s0 x) :
    bounded_core c N k s0 (adc_int_rearm x) := by
  obtain ⟨hw, h1, h2, hl, h3, h4, h5, h6, h7⟩ := h
  obtain ⟨r1, r2, r3, r4, r5⟩ := rearm_frame x
  refine ⟨r5 hw, ?_, ?_, ?_, ?_, ?_, ?_, ?_, ?_⟩
  · simp only [adc_get_ch_state, r1]; exact h1
  · simp only [adc_get_ch_state, r1]; exact h2
  · simp only [adc_get_ch_state, r1]; exact hl
  · simp only [adc_get_ch_state, r1]; exact h3
  · simp only [sink_count, rearm_buf]; exact h4
  · rw [r2]; exact h5
  · rw [r3]; exact h6
  · rw [r4]; exact h7

theorem done_rearm (c N s0 : Nat) (x : ADC) (h : bounded_done c N s0 x) :
    bounded_done c N s0 (adc_int_rearm x) := by
  obtain ⟨hw, h1, h2, h3⟩ := h
  obtain ⟨r1, -, -, r4, r5⟩ := rearm_frame x
  refine ⟨r5 hw, ?_, ?_, ?_⟩
  · simp only [adc_get_ch_state, r1]; exact h1
  · simp only [adc_samples_available, sink_count, rearm_buf, adc_get_ch_state, r1]; exact h2
  · rw [r4]; exact h3

theorem core_in_sequence (B : Bool) (c N k s0 : Nat) (hc : c < NUM_ADC) (st : ADC)
    (h : bounded_core c N k s0 (adc_int_handler B st)) :
    c ∈ adc_sequence (adc_int_handler B st) :=
  (handler_sequence_agree B st h.2.2.2.2.2.2.2.1 c hc).mp h.2.1

theorem core_handler_skip (B : Bool) (c N k s0 : Nat) (hc : c < NUM_ADC) (st : ADC)
    (h : bounded_core c N k s0 st) (he : c ∉ st.eoc) :
    bounded_core c N k s0 (adc_int_handler B st) ∧ c ∈ adc_sequence (adc_int_handler B st) := by
  have h0 : bounded_core c N k s0 (adc_int_entry st) := h
  have h1 := (core_loop_skip B c N k s0 hc (adc_int_entry st).d.seq_len _ h0 he).1
  have h2 : bounded_core c N k s0 (adc_int_captured B st) := h1
  have h3 : bounded_core c N k s0 (adc_int_handler B st) := core_rearm c N k s0 _ h2
  exact ⟨h3, core_in_sequence B c N k s0 hc st h3⟩

theorem core_handler_capture (B : Bool) (c N k s0 : Nat) (hB : B = true ∨ N = 1)
    (hc : c < NUM_ADC) (hk : k < N)
    (st : ADC) (h : bounded_core c N k s0 st) (he : c ∈ st.eoc) (hs : c ∈ adc_sequence st) :
    (k + 1 < N ∧ bounded_core c N (k + 1) s0 (adc_int_handler B st) ∧
      c ∈ adc_sequence (adc_int_handler B st)) ∨
    (k + 1 = N ∧ bounded_done c N s0 (adc_int_handler B st)) := by
  have h0 : bounded_core c N k s0 (adc_int_entry st) := h
  have hi : ∃ i, (adc_int_entry st).d.seq_ctr ≤ i ∧ i < (adc_int_entry st).d.seq_len ∧
      (adc_int_entry st).d.ch_state.getD i 0 = c := by
    simp only [adc_sequence, List.mem_map, List.mem_range] at hs
    obtain ⟨i, i1, i2⟩ := hs
    exact ⟨i, Nat.zero_le _, i1, i2⟩
  rcases core_loop_capture B c N k s0 hB hc hk (adc_int_entry st).d.seq_len _ h0 he hi
      (Nat.sub_le _ _) with ⟨a1, a2⟩ | ⟨a1, a2⟩
  · have h2 : bounded_core c N (k + 1) s0 (adc_int_captured B st) := a2
    have h3 : bounded_core c N (k + 1) s0 (adc_int_handler B st) := core_rearm c N _ s0 _ h2
    exact Or.inl ⟨a1, h3, core_in_sequence B c N _ s0 hc st h3⟩
  · have h2 : bounded_done c N s0 (adc_int_captured B st) := a2
    exact Or.inr ⟨a1, done_rearm c N s0 _ h2⟩

theorem core_run (B : Bool) (c N s0 : Nat) (hB : B = true ∨ N = 1) (hc : c < NUM_ADC)
    (bs : List Batch) (k : Nat)
    (st : ADC) (h : bounded_core c N k s0 st) (hs : c ∈ adc_sequence st)
    (hk : k + captures c bs < N) :
    bounded_core c N (k + captures c bs) s0 (adc_dispatch_all B st bs) ∧
    c ∈ adc_sequence (adc_dispatch_all B st bs) := by
  induction bs generalizing k st with
  | nil => exact ⟨h, hs⟩
  | cons b bs ih =>
    have hcons : captures c (b :: bs) = captures c bs + (if c ∈ b.eoc then 1 else 0) := by
      simp [captures, List.countP_cons]
    have hd : adc_dispatch_all B st (b :: bs) = adc_dispatch_all B (adc_dispatch B st b) bs :=
      rfl
    have h0 : bounded_core c N k s0 { st with eoc := b.eoc, cdr := b.cdr } := h
    have hs0 : c ∈ adc_sequence { st with eoc := b.eoc, cdr := b.cdr } := hs
    rw [hd]
    by_cases hb : c ∈ b.eoc
    · rw [hcons, if_pos hb] at hk ⊢
      rcases core_handler_capture B c N k s0 hB hc (by omega) _ h0 hb hs0 with
        ⟨-, a2, a3⟩ | ⟨a1, -⟩
      · have hi := ih (k + 1) (adc_dispatch B st b) a2 a3 (by omega)
        have e : k + (captures c bs + 1) = k + 1 + captures c bs := by omega
        rw [e]
        exact hi
      · omega
    · rw [hcons, if_neg hb] at hk ⊢
      obtain ⟨a2, a3⟩ := core_handler_skip B c N k s0 hc _ h0 hb
      exact ih k _ a2 a3 hk

end Avr32
